import Mathlib

/-!
The document-tree renderer of `src/md2latex.mjs`: a shallow embedding of `getYaml`,
`parseCode`, `parseImage`, `toLatex` and `toLatexPlugin`.

* JavaScript strings are lists of characters (`Str`).  Every string operation
  the renderer uses (`replaceAll`, `split`, `join`, `lastIndexOf`, `slice`)
  is applied with one-character ASCII search strings only, so working on
  characters agrees with working on UTF-16 code units.
* A thrown exception is `Except.error`; `new Error(m)` is `JSError.error m`,
  a property read on `undefined` is `JSError.typeError`.
* A JavaScript value that is either a string or `undefined`/`null` is an
  `Option Str`; `toStr` is its conversion to a string (as done by `+=` and by
  template literals) and `truthy` its use as a condition.
-/

namespace Md2Latex

/-- JavaScript strings, as lists of characters. -/
abbrev Str := List Char

/-- The exceptions the renderer can raise. -/
inductive JSError where
  | error (message : Str)
  | typeError
deriving DecidableEq, Repr

/-- Conversion to a string of a value that is a string or `undefined`. -/
def toStr : Option Str → Str
  | some s => s
  | none => "undefined".toList

/-- Truthiness of a value that is a string, `undefined` or `null`:
only a non-empty string is truthy. -/
def truthy : Option Str → Bool
  | some (_ :: _) => true
  | _ => false

/-! ## String built-ins -/

/-- The built-in `s.replaceAll(c, rep)` for a one-character search string `c`
(and a replacement without `$`). -/
def replaceAll (c : Char) (rep : Str) : Str → Str
  | [] => []
  | x :: xs => if x = c then rep ++ replaceAll c rep xs else x :: replaceAll c rep xs

/-- The built-in `s.split(sep)` for a one-character separator: the result is
never empty (`"".split("\n")` is `[""]`). -/
def split (sep : Char) : Str → List Str
  | [] => [[]]
  | x :: xs =>
    if x = sep then [] :: split sep xs
    else
      match split sep xs with
      | [] => [[x]]
      | r :: rs => (x :: r) :: rs

/-- The built-in `rows.join(sep)`. -/
def join (sep : Str) : List Str → Str
  | [] => []
  | [r] => r
  | r :: r2 :: rs => r ++ sep ++ join sep (r2 :: rs)

/-- The built-in `rows.map((v, i) => f(v, i))`, started at index `i`. -/
def mapFrom {α β : Type} (f : α → Nat → β) : Nat → List α → List β
  | _, [] => []
  | i, a :: as => f a i :: mapFrom f (i + 1) as

/-- The built-in `rows.map((v, i) => f(v, i))`. -/
def mapWithIndex {α β : Type} (f : α → Nat → β) (rows : List α) : List β :=
  mapFrom f 0 rows

/-- The built-in `s.lastIndexOf(c)` for a one-character search string:
the index of the last occurrence, `-1` when there is none. -/
def lastIndexOf (c : Char) : Str → Int
  | [] => -1
  | x :: xs =>
    let r := lastIndexOf c xs
    if 0 ≤ r then r + 1 else if x = c then 0 else -1

/-- The built-in `s.slice(start)`. -/
def slice (s : Str) (start : Int) : Str :=
  if start < 0 then s.drop (s.length + start).toNat else s.drop start.toNat

/-! ## Document tree -/

/-- Directive metadata attached to a code block (`node.frontmatter`): the
three keys the renderer reads, each a string or absent. -/
structure Frontmatter where
  label : Option Str
  caption : Option Str
  alignment : Option Str
deriving DecidableEq, Repr

/-- A document tree node: the `type` discriminant and the properties the
renderer reads.  A property a node type does not carry is ignored by the
renderer.  `none` stands for `undefined`/`null`. -/
inductive Node where
  | mk (type : Str) (children : List Node) (value : Str) (depth : Nat) (url : Str)
      (ordered : Option Bool) (lang : Option Str) (frontmatter : Option Frontmatter)
      (alt : Option Str)

namespace Node

def type : Node → Str
  | mk t _ _ _ _ _ _ _ _ => t

def children : Node → List Node
  | mk _ cs _ _ _ _ _ _ _ => cs

def value : Node → Str
  | mk _ _ v _ _ _ _ _ _ => v

def depth : Node → Nat
  | mk _ _ _ d _ _ _ _ _ => d

def url : Node → Str
  | mk _ _ _ _ u _ _ _ _ => u

def ordered : Node → Option Bool
  | mk _ _ _ _ _ o _ _ _ => o

def lang : Node → Option Str
  | mk _ _ _ _ _ _ l _ _ => l

def frontmatter : Node → Option Frontmatter
  | mk _ _ _ _ _ _ _ f _ => f

def alt : Node → Option Str
  | mk _ _ _ _ _ _ _ _ a => a

/-- A node with the given type and children. -/
def parent (type : String) (children : List Node) : Node :=
  mk type.toList children [] 0 [] none none none none

/-- A node with the given type and value. -/
def leaf (type : String) (value : String) : Node :=
  mk type.toList [] value.toList 0 [] none none none none

/-- A heading node. -/
def heading (depth : Nat) (children : List Node) : Node :=
  mk "heading".toList children [] depth [] none none none none

/-- A list node. -/
def list (ordered : Option Bool) (children : List Node) : Node :=
  mk "list".toList children [] 0 [] ordered none none none

/-- A link node. -/
def link (url : Str) (children : List Node) : Node :=
  mk "link".toList children [] 0 url none none none none

/-- A code node. -/
def code (lang : Option Str) (value : Str) (frontmatter : Option Frontmatter) : Node :=
  mk "code".toList [] value 0 [] none lang frontmatter none

/-- An image node. -/
def image (url : Str) (alt : Option Str) : Node :=
  mk "image".toList [] [] 0 url none none none alt

end Node

/-! ## `parseCode` -/

/-- The row transformation of the `csv` directive:
`v.replaceAll("&", "\\&").replaceAll(",", "&")`. -/
def transformRow (v : Str) : Str :=
  replaceAll ',' "&".toList (replaceAll '&' "\\&".toList v)

/-- The callback given to `map` in the `csv` directive. -/
def csvRow (v : Str) (i : Nat) : Str :=
  let ret := transformRow v
  if i = 1 then "\\hline\n".toList ++ ret else ret

/-- The function `parseCode(node)`. -/
def parseCode (node : Node) : Except JSError Str :=
  let front := node.frontmatter
  if node.lang = some "figure".toList then
    match front with
    | none => .error .typeError
    | some front =>
      let str := "\\begin\x7bfigure\x7d\n".toList
      let str := str ++ (node.value ++ "\n".toList)
      let str :=
        if truthy front.label then
          str ++ ("\\label\x7bfig:".toList ++ toStr front.label ++ "\x7d\n".toList)
        else str
      let str :=
        if truthy front.caption then
          str ++ ("\\caption\x7b".toList ++ toStr front.caption ++ "\x7d\n".toList)
        else str
      let str := str ++ "\\end\x7bfigure\x7d\n".toList
      .ok str
  else if node.lang = some "csv".toList then
    match front with
    | none => .error .typeError
    | some front =>
      let str := "\\begin\x7btable\x7d\n\\centering\\begin\x7btabular\x7d\x7b".toList
        ++ toStr front.alignment ++ "\x7d".toList
      let str := str ++ join "\\\\".toList (mapWithIndex csvRow (split '\n' node.value))
      let str := str ++ "\\end\x7btabular\x7d".toList
      let str :=
        if truthy front.label then
          str ++ ("\\label\x7btab:".toList ++ toStr front.label ++ "\x7d\n".toList)
        else str
      let str :=
        if truthy front.caption then
          str ++ ("\\caption\x7b".toList ++ toStr front.caption ++ "\x7d\n".toList)
        else str
      let str := str ++ "\\end\x7btable\x7d".toList
      .ok str
  else if node.lang = some [] then .ok []
  else .error (.error "unknown".toList)

/-! ## `parseImage` -/

/-- The switch discriminant of `parseImage`:
`url.slice(url.lastIndexOf(".") + 1)`. -/
def extension (url : Str) : Str :=
  slice url (lastIndexOf '.' url + 1)

/-- The function `parseImage(node)`; `none` is the result `undefined` of
falling out of the switch. -/
def parseImage (node : Node) : Option Str :=
  let ext := extension node.url
  if ext = "bib".toList then some []
  else if ext = "csv".toList then some []
  else if ext = "png".toList ∨ ext = "jpg".toList ∨ ext = "jpeg".toList then
    let str :=
      "\\begin\x7bfigure\x7d\n\\centering\n\\includegraphics[width=0.25\\linewidth]\x7b".toList
        ++ node.url ++ "\x7d\n".toList
    let str :=
      if truthy node.alt then
        str ++ ("\\caption\x7b".toList ++ toStr node.alt ++ "\x7d\n".toList)
      else str
    let str := str ++ "\\end\x7bfigure\x7d\n".toList
    some str
  else none

/-! ## `toLatex` -/

mutual

/-- The function `toLatex(node)`.  The result `none` is `undefined` (an image
with an extension `parseImage` has no case for).  The cases of the switch are
tried in source order.  In the `math` case the source template literal has a
single backslash before each bracket, an escape that stands for the bracket
itself, so the text produced is `[`, the value, `]`. -/
def toLatex : Node → Except JSError (Option Str)
  | .mk type children value depth url ordered lang front alt =>
    if type = "paragraph".toList ∨ type = "listItem".toList ∨ type = "root".toList then
      match concatLoop [] children with
      | .error e => .error e
      | .ok str => .ok (some str)
    else if type = "heading".toList then
      match concatLoop [] children with
      | .error e => .error e
      | .ok str =>
        if depth > 1 then .ok (some ("\\subsection\x7b".toList ++ str ++ "\x7d\n".toList))
        else .ok (some ("\\section\x7b".toList ++ str ++ "\x7d\n".toList))
    else if type = "text".toList then .ok (some value)
    else if type = "link".toList then
      match concatLoop [] children with
      | .error e => .error e
      | .ok str =>
        .ok (some ("\\href\x7b".toList ++ url ++ "\x7d\x7b".toList ++ str ++ "\x7d".toList))
    else if type = "list".toList then
      let str :=
        if ordered = some true then "\\begin\x7benumerate\x7d\n".toList
        else "\\begin\x7bitemize\x7d\n".toList
      match itemLoop str children with
      | .error e => .error e
      | .ok str =>
        .ok (some (str ++
          (if ordered = some true then "\\end\x7benumerate\x7d\n".toList
           else "\\end\x7bitemize\x7d\n".toList)))
    else if type = "inlineMath".toList then .ok (some ("$".toList ++ value ++ "$".toList))
    else if type = "math".toList then .ok (some ("[".toList ++ value ++ "]".toList))
    else if type = "inlineCode".toList then
      .ok (some ("\\verb|".toList ++ value ++ "|".toList))
    else if type = "code".toList then
      match parseCode (.mk type children value depth url ordered lang front alt) with
      | .error e => .error e
      | .ok str => .ok (some str)
    else if type = "html".toList then .ok (some [])
    else if type = "image".toList then
      .ok (parseImage (.mk type children value depth url ordered lang front alt))
    else .error (.error "unknown".toList)

/-- The loop `for (const n of children) str += toLatex(n)`, from the current
value of `str`. -/
def concatLoop (str : Str) : List Node → Except JSError Str
  | [] => .ok str
  | n :: ns =>
    match toLatex n with
    | .error e => .error e
    | .ok r => concatLoop (str ++ toStr r) ns

/-- The loop of the `list` case, whose body appends
`\item{`, the rendering of the child, `}` and a newline. -/
def itemLoop (str : Str) : List Node → Except JSError Str
  | [] => .ok str
  | n :: ns =>
    match toLatex n with
    | .error e => .error e
    | .ok r => itemLoop (str ++ ("\\item\x7b".toList ++ toStr r ++ "\x7d\n".toList)) ns

end

/-! ## `getYaml` and `toLatexPlugin` -/

/-- The value that `YAML.parse` returns for the leading block: `null` for an
empty block, else the mapping of the keys of the block to their values, taken
to be strings.  The other values it can return (a scalar, a sequence), on
which a property read does not throw either, are not represented. -/
inductive Metadata where
  | null
  | mapping (entries : List (Str × Str))

/-- The value of a key in a list of keys and values. -/
def lookup (key : Str) : List (Str × Str) → Option Str
  | [] => none
  | (k, v) :: rest => if k = key then some v else lookup key rest

/-- The properties that the object returned by `YAML.parse` inherits from
`Object.prototype`, each with the conversion to a string of its value (for the
built-in functions, the text Node gives them). -/
def objectPrototype : List (Str × Str) :=
  [("constructor".toList, "function Object() \x7b [native code] \x7d".toList),
   ("__defineGetter__".toList, "function __defineGetter__() \x7b [native code] \x7d".toList),
   ("__defineSetter__".toList, "function __defineSetter__() \x7b [native code] \x7d".toList),
   ("hasOwnProperty".toList, "function hasOwnProperty() \x7b [native code] \x7d".toList),
   ("__lookupGetter__".toList, "function __lookupGetter__() \x7b [native code] \x7d".toList),
   ("__lookupSetter__".toList, "function __lookupSetter__() \x7b [native code] \x7d".toList),
   ("isPrototypeOf".toList, "function isPrototypeOf() \x7b [native code] \x7d".toList),
   ("propertyIsEnumerable".toList,
      "function propertyIsEnumerable() \x7b [native code] \x7d".toList),
   ("toString".toList, "function toString() \x7b [native code] \x7d".toList),
   ("valueOf".toList, "function valueOf() \x7b [native code] \x7d".toList),
   ("__proto__".toList, "[object Object]".toList),
   ("toLocaleString".toList, "function toLocaleString() \x7b [native code] \x7d".toList)]

/-- The property read `frontmatter[p1]`.  On `null` it throws a TypeError.  On
a mapping it gives, as the string it converts to, the value of the key in the
mapping, else the inherited property of that name, else `none` for
`undefined`. -/
def getProperty (frontmatter : Metadata) (p1 : Str) : Except JSError (Option Str) :=
  match frontmatter with
  | .null => .error .typeError
  | .mapping entries =>
    match lookup p1 entries with
    | some v => .ok (some v)
    | none => .ok (lookup p1 objectPrototype)

/-- The function `getYaml(node)`, `YAML.parse` being the parameter `parse`;
`none` is the argument `undefined`, on which reading `type` throws. -/
def getYaml (parse : Str → Except JSError Metadata) (node : Option Node) :
    Except JSError Metadata :=
  match node with
  | none => .error .typeError
  | some node =>
    if node.type ≠ "yaml".toList then .error (.error "no frontmatter".toList)
    else parse node.value

/-- The call `tree.children.shift()`: the removed first child (`none` for
`undefined`, when there is no child) and the tree afterwards. -/
def shift : Node → Option Node × Node
  | .mk t cs v d u o l f a => (cs.head?, .mk t cs.tail v d u o l f a)

/-- The class `\w` of a regular expression without flags. -/
def isWordChar (c : Char) : Bool :=
  c.isAlphanum || c == '_'

/-- The regular expression `%(\w+)%` tried at the start of `s`: the captured
group when it matches.  The group is greedy, and giving characters back
cannot help, since they are not `%`. -/
def matchToken : Str → Option Str
  | [] => none
  | c :: rest =>
    if c = '%' then
      match rest.takeWhile isWordChar, rest.dropWhile isWordChar with
      | p :: ps, d :: _ => if d = '%' then some (p :: ps) else none
      | _, _ => none
    else none

/-- The built-in `s.replaceAll(/%(\w+)%/g, (match, p1) => replacer(p1))`: the
positions of `s` are visited from left to right, `skip` being the number of
characters still to pass over because they belong to the last match; where
the expression matches, the result of the callback stands for the match, and
elsewhere the character is kept.  The first exception of a callback is the
exception of the call. -/
def replaceTokens (replacer : Str → Except JSError Str) : Nat → Str → Except JSError Str
  | _, [] => .ok []
  | skip + 1, _ :: cs => replaceTokens replacer skip cs
  | 0, c :: cs =>
    match matchToken (c :: cs) with
    | some p1 =>
      match replacer p1 with
      | .error e => .error e
      | .ok r =>
        match replaceTokens replacer (p1.length + 1) cs with
        | .error e => .error e
        | .ok rest => .ok (r ++ rest)
    | none =>
      match replaceTokens replacer 0 cs with
      | .error e => .error e
      | .ok rest => .ok (c :: rest)

/-- The callback of `toLatexPlugin`, its result converted to a string. -/
def replacer (frontmatter : Metadata) (tree : Node) (p1 : Str) : Except JSError Str :=
  if p1 = "body".toList then
    match toLatex tree with
    | .error e => .error e
    | .ok r => .ok (toStr r)
  else
    match getProperty frontmatter p1 with
    | .error e => .error e
    | .ok x => .ok (toStr x)

/-- The function `toLatexPlugin(tree, file)`: the result is the text given to
`console.log`, an exception means that nothing is printed.  `template` is
the text of the template file and `parse` is `YAML.parse`.  The call
`matter(file)`, which only annotates `file`, is left out. -/
def toLatexPlugin (parse : Str → Except JSError Metadata) (template : Str) (tree : Node) :
    Except JSError Str :=
  match getYaml parse (shift tree).1 with
  | .error e => .error e
  | .ok frontmatter => replaceTokens (replacer frontmatter (shift tree).2) 0 template

/-! ## Notions used to state the properties -/

/-- The node types rendered as plain containers. -/
def isContainer (t : Str) : Prop :=
  t = "root".toList ∨ t = "paragraph".toList ∨ t = "listItem".toList

/-- Sequencing of two renderings, as `str += a; str += b` does: the first
exception wins, otherwise the two results are converted to strings and
concatenated. -/
def appendResults (a b : Except JSError (Option Str)) : Except JSError (Option Str) :=
  match a with
  | .error e => .error e
  | .ok x =>
    match b with
    | .error e => .error e
    | .ok y => .ok (some (toStr x ++ toStr y))

/-- One entry of a list environment: `\item{`, the rendering, `}`, newline. -/
def itemOf (r : Option Str) : Str :=
  "\\item\x7b".toList ++ toStr r ++ "\x7d\n".toList

/-- The environment name selected by the `ordered` flag. -/
def listEnv (ordered : Option Bool) : Str :=
  if ordered = some true then "enumerate".toList else "itemize".toList

/-- The node types `toLatex` has a case for. -/
def knownTypes : List Str :=
  ["root".toList, "paragraph".toList, "listItem".toList, "heading".toList, "text".toList,
    "link".toList, "list".toList, "inlineMath".toList, "math".toList, "inlineCode".toList,
    "code".toList, "html".toList, "image".toList]

/-- The node types whose children `toLatex` renders. -/
def traversedTypes : List Str :=
  ["root".toList, "paragraph".toList, "listItem".toList, "heading".toList, "link".toList,
    "list".toList]

/-- The language tags `parseCode` has a case for. -/
def knownTags : List (Option Str) :=
  [some "figure".toList, some "csv".toList, some []]

/-- The traversal of `toLatex` from `n` reaches `m`: `m` is `n` itself or is
reached from a child of `n`, when `n` is of a type whose children are
rendered. -/
inductive Reaches : Node → Node → Prop where
  | self (n : Node) : Reaches n n
  | child (t : Str) (cs : List Node) (v : Str) (d : Nat) (u : Str) (o : Option Bool)
      (l : Option Str) (f : Option Frontmatter) (a : Option Str) (c m : Node) :
      t ∈ traversedTypes → c ∈ cs → Reaches c m → Reaches (.mk t cs v d u o l f a) m

/-- A node whose type has no case in `toLatex`. -/
def unknownType (m : Node) : Prop :=
  m.type ∉ knownTypes

/-- A code node whose language tag has no case in `parseCode`. -/
def unknownDirective (m : Node) : Prop :=
  m.type = "code".toList ∧ m.lang ∉ knownTags

/-- A figure or csv code node without directive metadata. -/
def missingMetadata (m : Node) : Prop :=
  m.type = "code".toList ∧ (m.lang = some "figure".toList ∨ m.lang = some "csv".toList) ∧
    m.frontmatter = none

/-- The number of `&` in a row that are not immediately preceded by a
backslash, `prev` being the character before the row. -/
def unescapedAmpsAfter (prev : Option Char) : Str → Nat
  | [] => 0
  | c :: cs =>
    (if c = '&' ∧ prev ≠ some '\\' then 1 else 0) + unescapedAmpsAfter (some c) cs

/-- The number of `&` in a row that are not immediately preceded by a
backslash: the column separators of a tabular row. -/
def unescapedAmps (s : Str) : Nat :=
  unescapedAmpsAfter none s

/-- What the row transformation makes of one character. -/
def transformChar (c : Char) : Str :=
  if c = '&' then ['\\', '&'] else if c = ',' then ['&'] else [c]

/-- The rows of the tabular body: the transformed rows, the one at index 1
after a backslash-hline and a newline. -/
def tabularRows : List Str → List Str
  | [] => []
  | [r0] => [transformRow r0]
  | r0 :: r1 :: rest =>
    transformRow r0 :: ("\\hline\n".toList ++ transformRow r1) :: rest.map transformRow

/-- An optional part of an environment: `pre`, the value, `}` and a newline
when the value is truthy, nothing otherwise. -/
def optionalPart (pre : Str) (x : Option Str) : Str :=
  if truthy x then pre ++ toStr x ++ "\x7d\n".toList else []

/-- Every code node that the traversal of `toLatex` reaches from `n` carries
directive metadata, as the code nodes of a parsed document do. -/
def carriesMetadata (n : Node) : Prop :=
  ∀ m, Reaches n m → m.type = "code".toList → m.frontmatter ≠ none

/-- A node at which `toLatex` throws by itself. -/
def fatalNode (m : Node) : Prop :=
  unknownType m ∨ unknownDirective m ∨ missingMetadata m

/-- A text node. -/
def Node.text (value : Str) : Node :=
  .mk "text".toList [] value 0 [] none none none none

/-- The captured groups of the matches that `replaceTokens` finds, in order. -/
def tokens : Nat → Str → List Str
  | _, [] => []
  | skip + 1, _ :: cs => tokens skip cs
  | 0, c :: cs =>
    match matchToken (c :: cs) with
    | some p1 => p1 :: tokens (p1.length + 1) cs
    | none => tokens 0 cs

/-- No match of the regular expression starts inside `pre` when `pre` is
followed by `suf`. -/
def NoTokenBefore (pre suf : Str) : Prop :=
  ∀ p q : Str, pre = p ++ q → q ≠ [] → matchToken (q ++ suf) = none

/-! ## Lemmas on the loops of `toLatex` -/

theorem concatLoop_acc (acc : Str) (ns : List Node) :
    concatLoop acc ns = (concatLoop [] ns).map (acc ++ ·) := by
  induction ns generalizing acc with
  | nil => simp [concatLoop, Except.map]
  | cons n ns ih =>
    rw [concatLoop, concatLoop]
    cases h : toLatex n with
    | error e => simp [Except.map]
    | ok r =>
      simp only []
      rw [ih (acc ++ toStr r), ih ([] ++ toStr r)]
      cases concatLoop [] ns <;> simp [Except.map]

theorem concatLoop_append (acc : Str) (xs ys : List Node) :
    concatLoop acc (xs ++ ys) =
      match concatLoop acc xs with
      | .error e => .error e
      | .ok s => concatLoop s ys := by
  induction xs generalizing acc with
  | nil => simp [concatLoop]
  | cons n ns ih =>
    simp only [List.cons_append, concatLoop]
    cases h : toLatex n with
    | error e => simp
    | ok r => simp only []; exact ih _

theorem concatLoop_mapM (acc : Str) (ns : List Node) :
    concatLoop acc ns = (ns.mapM toLatex).map (fun rs => acc ++ rs.flatMap toStr) := by
  induction ns generalizing acc with
  | nil => rw [concatLoop, List.mapM_nil]; simp [Except.map, pure, Except.pure]
  | cons n ns ih =>
    rw [concatLoop, List.mapM_cons]
    cases h : toLatex n with
    | error e => simp [Except.map, bind, Except.bind]
    | ok r =>
      simp only []
      rw [ih]
      cases List.mapM toLatex ns <;>
        simp [Except.map, bind, Except.bind, pure, Except.pure]

theorem itemLoop_mapM (acc : Str) (ns : List Node) :
    itemLoop acc ns = (ns.mapM toLatex).map (fun rs => acc ++ rs.flatMap itemOf) := by
  induction ns generalizing acc with
  | nil => rw [itemLoop, List.mapM_nil]; simp [Except.map, pure, Except.pure]
  | cons n ns ih =>
    rw [itemLoop, List.mapM_cons]
    cases h : toLatex n with
    | error e => simp [Except.map, bind, Except.bind]
    | ok r =>
      simp only []
      rw [ih]
      cases List.mapM toLatex ns <;>
        simp [Except.map, bind, Except.bind, pure, Except.pure, itemOf]

theorem toLatex_container (t : Str) (h : isContainer t) (cs : List Node) (v : Str) (d : Nat)
    (u : Str) (o : Option Bool) (l : Option Str) (f : Option Frontmatter) (a : Option Str) :
    toLatex (.mk t cs v d u o l f a) = (concatLoop [] cs).map some := by
  rw [toLatex]
  have h2 : t = "paragraph".toList ∨ t = "listItem".toList ∨ t = "root".toList := by
    rcases h with h | h | h <;> simp [h]
  rw [if_pos h2]
  cases concatLoop [] cs <;> simp [Except.map]

theorem container_concat_aux (t : Str) (ht : isContainer t) (v : Str) (d : Nat) (u : Str)
    (o : Option Bool) (l : Option Str) (f : Option Frontmatter) (a : Option Str)
    (cs : List Node) :
    toLatex (.mk t cs v d u o l f a) =
      (cs.mapM toLatex).map (fun rs => some (rs.flatMap toStr)) := by
  rw [toLatex_container t ht, concatLoop_mapM]
  cases List.mapM toLatex cs <;> simp [Except.map]

/-! ## Containers -/

/-- C1: a node of type root, paragraph or listItem renders to the concatenation
of the renderings of its children, in order, nothing added: it is the
children's results (the first exception, if a child throws), each converted
to a string, appended; so an empty container renders to the empty string, and
the rendering of the children `xs ++ ys` is the rendering of `xs` followed by
that of `ys`. -/
theorem container_concat (t : Str) (ht : isContainer t) (v : Str) (d : Nat) (u : Str)
    (o : Option Bool) (l : Option Str) (f : Option Frontmatter) (a : Option Str) :
    (∀ cs : List Node, toLatex (.mk t cs v d u o l f a) =
        (cs.mapM toLatex).map (fun rs => some (rs.flatMap toStr))) ∧
    toLatex (.mk t [] v d u o l f a) = .ok (some []) ∧
    (∀ xs ys : List Node, toLatex (.mk t (xs ++ ys) v d u o l f a) =
        appendResults (toLatex (.mk t xs v d u o l f a)) (toLatex (.mk t ys v d u o l f a))) := by
  refine ⟨?_, ?_, ?_⟩
  · exact container_concat_aux t ht v d u o l f a
  · rw [toLatex_container t ht]
    simp [concatLoop, Except.map]
  · intro xs ys
    rw [toLatex_container t ht, toLatex_container t ht, toLatex_container t ht,
      concatLoop_append]
    cases hx : concatLoop [] xs with
    | error e => simp [Except.map, appendResults]
    | ok s =>
      simp only []
      rw [concatLoop_acc s ys]
      cases concatLoop [] ys <;> simp [Except.map, appendResults, toStr]

/-- Witness of C1: a paragraph of two text nodes. -/
theorem container_concat_witness :
    isContainer "paragraph".toList ∧
    toLatex (Node.parent "paragraph" ([Node.leaf "text" "ab"] ++ [Node.leaf "text" "c"])) =
      appendResults (toLatex (Node.parent "paragraph" [Node.leaf "text" "ab"]))
        (toLatex (Node.parent "paragraph" [Node.leaf "text" "c"])) :=
  ⟨Or.inr (Or.inl rfl),
    (container_concat "paragraph".toList (Or.inr (Or.inl rfl)) [] 0 [] none none none none).2.2
      [Node.leaf "text" "ab"] [Node.leaf "text" "c"]⟩

/-! ## Headings -/

theorem toLatex_heading (cs : List Node) (v : Str) (d : Nat) (u : Str) (o : Option Bool)
    (l : Option Str) (f : Option Frontmatter) (a : Option Str) :
    toLatex (.mk "heading".toList cs v d u o l f a) =
      (cs.mapM toLatex).map (fun rs =>
        some ((if d > 1 then "\\subsection\x7b".toList else "\\section\x7b".toList)
          ++ rs.flatMap toStr ++ "\x7d\n".toList)) := by
  rw [toLatex, if_neg (by decide), if_pos rfl, concatLoop_mapM]
  cases List.mapM toLatex cs with
  | error e => simp [Except.map]
  | ok rs => by_cases hd : d > 1 <;> simp [Except.map, hd]

/-- C2: a heading of depth 1 renders to the backslash-section wrapper around
the concatenated rendering of its children, a heading of any depth `d ≥ 2` to
the backslash-subsection wrapper, so every depth `d ≥ 2` renders as depth 2
does (a child's exception is the heading's exception). -/
theorem heading_levels (d : Nat) (hd : 2 ≤ d) (cs : List Node) (v : Str) (u : Str)
    (o : Option Bool) (l : Option Str) (f : Option Frontmatter) (a : Option Str) :
    toLatex (.mk "heading".toList cs v 1 u o l f a) =
      (cs.mapM toLatex).map (fun rs =>
        some ("\\section\x7b".toList ++ rs.flatMap toStr ++ "\x7d\n".toList)) ∧
    toLatex (.mk "heading".toList cs v d u o l f a) =
      (cs.mapM toLatex).map (fun rs =>
        some ("\\subsection\x7b".toList ++ rs.flatMap toStr ++ "\x7d\n".toList)) ∧
    toLatex (.mk "heading".toList cs v d u o l f a) =
      toLatex (.mk "heading".toList cs v 2 u o l f a) := by
  have h1 : d > 1 := hd
  refine ⟨?_, ?_, ?_⟩
  · rw [toLatex_heading]; simp
  · rw [toLatex_heading]; simp [h1]
  · rw [toLatex_heading, toLatex_heading]; simp [h1]

/-- Witness of C2: a heading of depth 3 renders as the same heading at
depth 2. -/
theorem heading_levels_witness :
    2 ≤ 3 ∧
    toLatex (Node.heading 3 [Node.leaf "text" "T"]) =
      toLatex (Node.heading 2 [Node.leaf "text" "T"]) :=
  ⟨by decide,
    (heading_levels 3 (by decide) [Node.leaf "text" "T"] [] [] none none none none).2.2⟩

/-! ## Lists -/

theorem toLatex_list (cs : List Node) (v : Str) (d : Nat) (u : Str) (o : Option Bool)
    (l : Option Str) (f : Option Frontmatter) (a : Option Str) :
    toLatex (.mk "list".toList cs v d u o l f a) =
      (cs.mapM toLatex).map (fun rs =>
        some ("\\begin\x7b".toList ++ listEnv o ++ "\x7d\n".toList ++ rs.flatMap itemOf
          ++ ("\\end\x7b".toList ++ listEnv o ++ "\x7d\n".toList))) := by
  rw [toLatex, if_neg (by decide), if_neg (by decide), if_neg (by decide), if_neg (by decide),
    if_pos rfl]
  simp only []
  rw [itemLoop_mapM]
  cases List.mapM toLatex cs with
  | error e => simp [Except.map]
  | ok rs => by_cases ho : o = some true <;> simp [Except.map, listEnv, ho]

/-- C3, as the claim states it, fails: the unordered list of the text nodes
"a" and "b" does not render to the claimed text, which has nothing between the
opening of the environment and the first item and nothing after its
closing; the code puts a newline at both places. -/
theorem list_claimed_output_refuted :
    toLatex (Node.list (some false) [Node.leaf "text" "a", Node.leaf "text" "b"]) ≠
      .ok (some
        "\\begin\x7bitemize\x7d\\item\x7ba\x7d\n\\item\x7bb\x7d\n\\end\x7bitemize\x7d".toList) ∧
    toLatex (Node.list (some false) [Node.leaf "text" "a", Node.leaf "text" "b"]) =
      .ok (some
        "\\begin\x7bitemize\x7d\n\\item\x7ba\x7d\n\\item\x7bb\x7d\n\\end\x7bitemize\x7d\n".toList) := by
  have h : toLatex (Node.list (some false) [Node.leaf "text" "a", Node.leaf "text" "b"]) =
      .ok (some
        "\\begin\x7bitemize\x7d\n\\item\x7ba\x7d\n\\item\x7bb\x7d\n\\end\x7bitemize\x7d\n".toList) := rfl
  refine ⟨?_, h⟩
  rw [h]
  intro hc
  have hlen := congrArg (fun r => (r.toOption.map (fun s => (toStr s).length))) hc
  revert hlen
  decide

/-- C3, amended: a list node renders to the opening of the environment and a
newline, then for each child in order one item holding the rendering of that
child followed by a newline, then the closing of the same environment and a
newline; the environment is enumerate when `ordered` is true and itemize
otherwise.  The unordered list of the text nodes "a" and "b" renders to the
itemize environment with a newline after its opening, after each item and
after its closing. -/
theorem list_rendering (o : Option Bool) (cs : List Node) (v : Str) (d : Nat) (u : Str)
    (l : Option Str) (f : Option Frontmatter) (a : Option Str) :
    toLatex (.mk "list".toList cs v d u o l f a) =
      (cs.mapM toLatex).map (fun rs =>
        some ("\\begin\x7b".toList ++ listEnv o ++ "\x7d\n".toList
          ++ rs.flatMap (fun r => "\\item\x7b".toList ++ toStr r ++ "\x7d\n".toList)
          ++ ("\\end\x7b".toList ++ listEnv o ++ "\x7d\n".toList))) ∧
    listEnv (some true) = "enumerate".toList ∧
    listEnv (some false) = "itemize".toList ∧
    listEnv none = "itemize".toList ∧
    toLatex (Node.list (some false) [Node.leaf "text" "a", Node.leaf "text" "b"]) =
      .ok (some
        "\\begin\x7bitemize\x7d\n\\item\x7ba\x7d\n\\item\x7bb\x7d\n\\end\x7bitemize\x7d\n".toList) := by
  refine ⟨?_, rfl, rfl, rfl, rfl⟩
  rw [toLatex_list]
  rfl

/-! ## Code directives -/

theorem parseCode_fails_iff (n : Node) :
    (∃ e, parseCode n = .error e) ↔
      n.lang ∉ knownTags ∨
        ((n.lang = some "figure".toList ∨ n.lang = some "csv".toList) ∧ n.frontmatter = none) := by
  unfold parseCode
  simp only []
  split_ifs with h1 h2 h3
  · cases hf : n.frontmatter <;> simp_all [knownTags]
  · cases hf : n.frontmatter <;> simp_all [knownTags]
  · simp_all [knownTags]
  · simp_all [knownTags]

theorem parseCode_unknown (n : Node) (h1 : n.lang ≠ some "figure".toList)
    (h2 : n.lang ≠ some "csv".toList) (h3 : n.lang ≠ some []) :
    parseCode n = .error (.error "unknown".toList) := by
  unfold parseCode
  simp only []
  rw [if_neg h1, if_neg h2, if_neg h3]

theorem parseCode_empty_tag (n : Node) (h : n.lang = some []) : parseCode n = .ok [] := by
  unfold parseCode
  simp only []
  rw [if_neg (by rw [h]; decide), if_neg (by rw [h]; decide), if_pos h]

/-- C5: on a code node that has directive metadata, `parseCode` throws exactly
when the language tag is none of the three strings "figure", "csv" and ""
(compared exactly: "Figure" and "CSV" throw, and so does a missing tag); the
exception is then the error "unknown"; and for the tag "" it returns the
empty string whatever the value and the metadata, absent metadata
included. -/
theorem parseCode_tags (t : Str) (cs : List Node) (v : Str) (d : Nat) (u : Str)
    (o : Option Bool) (lang : Option Str) (fm : Frontmatter) (f : Option Frontmatter)
    (a : Option Str) :
    ((∃ e, parseCode (.mk t cs v d u o lang (some fm) a) = .error e) ↔
      (lang ≠ some "figure".toList ∧ lang ≠ some "csv".toList ∧ lang ≠ some "".toList)) ∧
    ((∃ e, parseCode (.mk t cs v d u o lang (some fm) a) = .error e) →
      parseCode (.mk t cs v d u o lang (some fm) a) = .error (.error "unknown".toList)) ∧
    parseCode (.mk t cs v d u o (some "".toList) f a) = .ok [] ∧
    (∃ e, parseCode (.mk t cs v d u o (some "Figure".toList) (some fm) a) = .error e) ∧
    (∃ e, parseCode (.mk t cs v d u o (some "CSV".toList) (some fm) a) = .error e) ∧
    (∃ e, parseCode (.mk t cs v d u o none (some fm) a) = .error e) := by
  have key : ∀ lang : Option Str,
      (∃ e, parseCode (.mk t cs v d u o lang (some fm) a) = .error e) ↔
      (lang ≠ some "figure".toList ∧ lang ≠ some "csv".toList ∧ lang ≠ some "".toList) := by
    intro lang
    rw [parseCode_fails_iff]
    simp [Node.lang, Node.frontmatter, knownTags]
  refine ⟨key lang, ?_, ?_, (key _).2 (by decide), (key _).2 (by decide), (key _).2 (by decide)⟩
  · intro h
    obtain ⟨h1, h2, h3⟩ := (key lang).1 h
    exact parseCode_unknown _ h1 h2 h3
  · exact parseCode_empty_tag _ rfl

/-! ## Failure of `toLatex` -/

theorem mapM_fails_iff {α β ε : Type} (g : α → Except ε β) (xs : List α) :
    (∃ e, xs.mapM g = .error e) ↔ ∃ x ∈ xs, ∃ e, g x = .error e := by
  induction xs with
  | nil =>
    rw [List.mapM_nil]
    simp [pure, Except.pure]
  | cons x xs ih =>
    rw [List.mapM_cons]
    cases hx : g x with
    | error e => simp [bind, Except.bind, hx]
    | ok r =>
      cases hxs : List.mapM g xs with
      | error e =>
        have h2 := ih.1 (by rw [hxs]; exact ⟨e, rfl⟩)
        obtain ⟨y, hy, e2, hy2⟩ := h2
        simp only [bind, Except.bind, List.mem_cons]
        exact ⟨fun _ => ⟨y, Or.inr hy, e2, hy2⟩, fun _ => ⟨e, rfl⟩⟩
      | ok rs =>
        have h2 : ¬ ∃ y ∈ xs, ∃ e, g y = .error e := by
          intro h
          obtain ⟨e, he⟩ := ih.2 h
          rw [hxs] at he
          cases he
        simp only [bind, Except.bind, pure, Except.pure, List.mem_cons]
        constructor
        · rintro ⟨e, he⟩
          cases he
        · rintro ⟨y, hy | hy, e, he⟩
          · subst hy
            rw [hx] at he
            cases he
          · exact absurd ⟨y, hy, e, he⟩ h2

theorem map_fails_iff {α β ε : Type} (g : α → β) (r : Except ε α) :
    (∃ e, r.map g = .error e) ↔ ∃ e, r = .error e := by
  cases r <;> simp [Except.map]

theorem toLatex_link (cs : List Node) (v : Str) (d : Nat) (u : Str) (o : Option Bool)
    (l : Option Str) (f : Option Frontmatter) (a : Option Str) :
    toLatex (.mk "link".toList cs v d u o l f a) =
      (cs.mapM toLatex).map (fun rs =>
        some ("\\href\x7b".toList ++ u ++ "\x7d\x7b".toList ++ rs.flatMap toStr
          ++ "\x7d".toList)) := by
  rw [toLatex, if_neg (by decide), if_neg (by decide), if_neg (by decide), if_pos rfl,
    concatLoop_mapM]
  cases List.mapM toLatex cs with
  | error e => simp [Except.map]
  | ok rs => simp [Except.map]

/-- A node of a type whose children are rendered is the children's results
passed through a function that always yields a string. -/
theorem toLatex_traversed (t : Str) (ht : t ∈ traversedTypes) (cs : List Node) (v : Str)
    (d : Nat) (u : Str) (o : Option Bool) (l : Option Str) (f : Option Frontmatter)
    (a : Option Str) :
    ∃ g : List (Option Str) → Str,
      toLatex (.mk t cs v d u o l f a) = (cs.mapM toLatex).map (fun rs => some (g rs)) := by
  simp only [traversedTypes, List.mem_cons, List.mem_singleton, List.not_mem_nil,
    or_false] at ht
  rcases ht with h | h | h | h | h | h
  · exact ⟨_, by rw [(container_concat_aux t (Or.inl h) v d u o l f a) cs]⟩
  · exact ⟨_, by rw [(container_concat_aux t (Or.inr (Or.inl h)) v d u o l f a) cs]⟩
  · exact ⟨_, by rw [(container_concat_aux t (Or.inr (Or.inr h)) v d u o l f a) cs]⟩
  · subst h; exact ⟨_, toLatex_heading cs v d u o l f a⟩
  · subst h; exact ⟨_, toLatex_link cs v d u o l f a⟩
  · subst h; exact ⟨_, toLatex_list cs v d u o l f a⟩

theorem mem_knownTypes_iff (t : Str) :
    t ∈ knownTypes ↔
      t ∈ traversedTypes ∨ t = "text".toList ∨ t = "inlineMath".toList ∨ t = "math".toList ∨
        t = "inlineCode".toList ∨ t = "code".toList ∨ t = "html".toList ∨
        t = "image".toList := by
  simp only [knownTypes, traversedTypes, List.mem_cons, List.mem_singleton, List.not_mem_nil,
    or_false]
  tauto

theorem toLatex_unknown (t : Str) (ht : t ∉ knownTypes) (cs : List Node) (v : Str) (d : Nat)
    (u : Str) (o : Option Bool) (l : Option Str) (f : Option Frontmatter) (a : Option Str) :
    toLatex (.mk t cs v d u o l f a) = .error (.error "unknown".toList) := by
  simp only [knownTypes, List.mem_cons, List.mem_singleton, List.not_mem_nil, or_false,
    not_or] at ht
  obtain ⟨h1, h2, h3, h4, h5, h6, h7, h8, h9, h10, h11, h12, h13⟩ := ht
  rw [toLatex, if_neg (by rintro (h | h | h) <;> contradiction), if_neg h4, if_neg h5,
    if_neg h6, if_neg h7, if_neg h8, if_neg h9, if_neg h10, if_neg h11, if_neg h12, if_neg h13]

theorem toLatex_code (cs : List Node) (v : Str) (d : Nat) (u : Str) (o : Option Bool)
    (l : Option Str) (f : Option Frontmatter) (a : Option Str) :
    toLatex (.mk "code".toList cs v d u o l f a) =
      (parseCode (.mk "code".toList cs v d u o l f a)).map some := by
  rw [toLatex, if_neg (by decide), if_neg (by decide), if_neg (by decide), if_neg (by decide),
    if_neg (by decide), if_neg (by decide), if_neg (by decide), if_neg (by decide), if_pos rfl]
  cases parseCode (.mk "code".toList cs v d u o l f a) <;> rfl

theorem toLatex_image (cs : List Node) (v : Str) (d : Nat) (u : Str) (o : Option Bool)
    (l : Option Str) (f : Option Frontmatter) (a : Option Str) :
    toLatex (.mk "image".toList cs v d u o l f a) =
      .ok (parseImage (.mk "image".toList cs v d u o l f a)) := by
  rw [toLatex, if_neg (by decide), if_neg (by decide), if_neg (by decide), if_neg (by decide),
    if_neg (by decide), if_neg (by decide), if_neg (by decide), if_neg (by decide),
    if_neg (by decide), if_neg (by decide), if_pos rfl]

theorem toLatex_html (cs : List Node) (v : Str) (d : Nat) (u : Str) (o : Option Bool)
    (l : Option Str) (f : Option Frontmatter) (a : Option Str) :
    toLatex (.mk "html".toList cs v d u o l f a) = .ok (some []) := by
  rw [toLatex, if_neg (by decide), if_neg (by decide), if_neg (by decide), if_neg (by decide),
    if_neg (by decide), if_neg (by decide), if_neg (by decide), if_neg (by decide),
    if_neg (by decide), if_pos rfl]

/-- The node types rendered from the value alone always yield a string. -/
theorem toLatex_value_leaf (t : Str)
    (ht : t = "text".toList ∨ t = "inlineMath".toList ∨ t = "math".toList ∨
      t = "inlineCode".toList) (cs : List Node) (v : Str) (d : Nat)
    (u : Str) (o : Option Bool) (l : Option Str) (f : Option Frontmatter) (a : Option Str) :
    ∃ s, toLatex (.mk t cs v d u o l f a) = .ok (some s) := by
  rcases ht with h | h | h | h <;> subst h
  · exact ⟨_, by rw [toLatex, if_neg (by decide), if_neg (by decide), if_pos rfl]⟩
  · exact ⟨_, by rw [toLatex, if_neg (by decide), if_neg (by decide), if_neg (by decide),
      if_neg (by decide), if_neg (by decide), if_pos rfl]⟩
  · exact ⟨_, by rw [toLatex, if_neg (by decide), if_neg (by decide), if_neg (by decide),
      if_neg (by decide), if_neg (by decide), if_neg (by decide), if_pos rfl]⟩
  · exact ⟨_, by rw [toLatex, if_neg (by decide), if_neg (by decide), if_neg (by decide),
      if_neg (by decide), if_neg (by decide), if_neg (by decide), if_neg (by decide),
      if_pos rfl]⟩

theorem reaches_of_not_traversed (n m : Node) (h : Reaches n m)
    (ht : n.type ∉ traversedTypes) : m = n := by
  cases h with
  | self => rfl
  | child t cs v d u o l f a c m h1 h2 h3 => exact absurd h1 ht

theorem not_fatal_of_known (t : Str) (hk : t ∈ knownTypes) (hc : t ≠ "code".toList)
    (cs : List Node) (v : Str) (d : Nat) (u : Str) (o : Option Bool) (l : Option Str)
    (f : Option Frontmatter) (a : Option Str) : ¬ fatalNode (.mk t cs v d u o l f a) := by
  rintro (h | h | h)
  · exact h hk
  · exact hc h.1
  · exact hc h.1

theorem not_fatal_of_traversed (t : Str) (ht : t ∈ traversedTypes) (cs : List Node) (v : Str)
    (d : Nat) (u : Str) (o : Option Bool) (l : Option Str) (f : Option Frontmatter)
    (a : Option Str) : ¬ fatalNode (.mk t cs v d u o l f a) := by
  have hk : t ∈ knownTypes := (mem_knownTypes_iff t).2 (Or.inl ht)
  have hc : t ≠ "code".toList := by
    rintro rfl
    revert ht
    decide
  exact not_fatal_of_known t hk hc cs v d u o l f a

theorem toLatex_fails_iff_aux (k : Nat) :
    ∀ n : Node, sizeOf n < k →
      ((∃ e, toLatex n = .error e) ↔ ∃ m, Reaches n m ∧ fatalNode m) := by
  induction k with
  | zero => intro n h; omega
  | succ k ih =>
    rintro ⟨t, cs, v, d, u, o, l, f, a⟩ hsize
    by_cases ht : t ∈ traversedTypes
    · obtain ⟨g, hg⟩ := toLatex_traversed t ht cs v d u o l f a
      rw [hg, map_fails_iff, mapM_fails_iff]
      have hchild : ∀ c ∈ cs, sizeOf c < k := by
        intro c hc
        have h1 := List.sizeOf_lt_of_mem hc
        simp only [Node.mk.sizeOf_spec] at hsize
        omega
      constructor
      · rintro ⟨c, hc, he⟩
        obtain ⟨m, hm, hf⟩ := (ih c (hchild c hc)).1 he
        exact ⟨m, Reaches.child t cs v d u o l f a c m ht hc hm, hf⟩
      · rintro ⟨m, hm, hf⟩
        cases hm with
        | self => exact absurd hf (not_fatal_of_traversed t ht cs v d u o l f a)
        | child _ _ _ _ _ _ _ _ _ c _ h1 h2 h3 =>
          exact ⟨c, h2, (ih c (hchild c h2)).2 ⟨m, h3, hf⟩⟩
    · have hself : ∀ m, Reaches (.mk t cs v d u o l f a) m → m = .mk t cs v d u o l f a :=
        fun m hm => reaches_of_not_traversed _ m hm ht
      have hiff : (∃ m, Reaches (.mk t cs v d u o l f a) m ∧ fatalNode m) ↔
          fatalNode (.mk t cs v d u o l f a) := by
        constructor
        · rintro ⟨m, hm, hf⟩
          rw [hself m hm] at hf
          exact hf
        · intro hf
          exact ⟨_, Reaches.self _, hf⟩
      rw [hiff]
      by_cases hk : t ∈ knownTypes
      · rcases (mem_knownTypes_iff t).1 hk with h | h | h | h | h | h | h | h
        · exact absurd h ht
        · obtain ⟨s, hs⟩ := toLatex_value_leaf t (Or.inl h) cs v d u o l f a
          subst h
          rw [hs]
          exact ⟨fun ⟨e, he⟩ => (by cases he),
            fun hf => absurd hf (not_fatal_of_known _ hk (by decide) cs v d u o l f a)⟩
        · obtain ⟨s, hs⟩ := toLatex_value_leaf t (Or.inr (Or.inl h)) cs v d u o l f a
          subst h
          rw [hs]
          exact ⟨fun ⟨e, he⟩ => (by cases he),
            fun hf => absurd hf (not_fatal_of_known _ hk (by decide) cs v d u o l f a)⟩
        · obtain ⟨s, hs⟩ := toLatex_value_leaf t (Or.inr (Or.inr (Or.inl h))) cs v d u o l f a
          subst h
          rw [hs]
          exact ⟨fun ⟨e, he⟩ => (by cases he),
            fun hf => absurd hf (not_fatal_of_known _ hk (by decide) cs v d u o l f a)⟩
        · obtain ⟨s, hs⟩ :=
            toLatex_value_leaf t (Or.inr (Or.inr (Or.inr h))) cs v d u o l f a
          subst h
          rw [hs]
          exact ⟨fun ⟨e, he⟩ => (by cases he),
            fun hf => absurd hf (not_fatal_of_known _ hk (by decide) cs v d u o l f a)⟩
        · subst h
          rw [toLatex_code, map_fails_iff, parseCode_fails_iff]
          constructor
          · rintro (h | h)
            · exact Or.inr (Or.inl ⟨rfl, h⟩)
            · exact Or.inr (Or.inr ⟨rfl, h⟩)
          · rintro (h | h | h)
            · exact absurd hk h
            · exact Or.inl h.2
            · exact Or.inr h.2
        · subst h
          rw [toLatex_html]
          exact ⟨fun ⟨e, he⟩ => (by cases he),
            fun hf => absurd hf (not_fatal_of_known _ hk (by decide) cs v d u o l f a)⟩
        · subst h
          rw [toLatex_image]
          exact ⟨fun ⟨e, he⟩ => (by cases he),
            fun hf => absurd hf (not_fatal_of_known _ hk (by decide) cs v d u o l f a)⟩
      · rw [toLatex_unknown t hk]
        exact ⟨fun _ => Or.inl hk, fun _ => ⟨_, rfl⟩⟩

theorem toLatex_fails_iff (n : Node) :
    (∃ e, toLatex n = .error e) ↔ ∃ m, Reaches n m ∧ fatalNode m :=
  toLatex_fails_iff_aux (sizeOf n + 1) n (Nat.lt_succ_self _)

theorem undefined_iff_of_ne (n : Node) (h1 : toLatex n ≠ .ok none)
    (h2 : n.type ≠ "image".toList) :
    toLatex n = .ok none ↔ n.type = "image".toList ∧ parseImage n = none :=
  ⟨fun h => absurd h h1, fun h => absurd h.1 h2⟩

theorem toLatex_undefined_iff (n : Node) :
    toLatex n = .ok none ↔ n.type = "image".toList ∧ parseImage n = none := by
  obtain ⟨t, cs, v, d, u, o, l, f, a⟩ := n
  by_cases hk : t ∈ knownTypes
  · rcases (mem_knownTypes_iff t).1 hk with h | h | h | h | h | h | h | h
    · obtain ⟨g, hg⟩ := toLatex_traversed t h cs v d u o l f a
      have hi : t ≠ "image".toList := by
        rintro rfl
        revert h
        decide
      refine undefined_iff_of_ne _ ?_ hi
      rw [hg]
      cases List.mapM toLatex cs <;> simp [Except.map]
    · obtain ⟨s, hs⟩ := toLatex_value_leaf t (Or.inl h) cs v d u o l f a
      refine undefined_iff_of_ne _ ?_ (by show t ≠ "image".toList; rw [h]; decide)
      rw [hs]
      simp
    · obtain ⟨s, hs⟩ := toLatex_value_leaf t (Or.inr (Or.inl h)) cs v d u o l f a
      refine undefined_iff_of_ne _ ?_ (by show t ≠ "image".toList; rw [h]; decide)
      rw [hs]
      simp
    · obtain ⟨s, hs⟩ := toLatex_value_leaf t (Or.inr (Or.inr (Or.inl h))) cs v d u o l f a
      refine undefined_iff_of_ne _ ?_ (by show t ≠ "image".toList; rw [h]; decide)
      rw [hs]
      simp
    · obtain ⟨s, hs⟩ := toLatex_value_leaf t (Or.inr (Or.inr (Or.inr h))) cs v d u o l f a
      refine undefined_iff_of_ne _ ?_ (by show t ≠ "image".toList; rw [h]; decide)
      rw [hs]
      simp
    · refine undefined_iff_of_ne _ ?_ (by show t ≠ "image".toList; rw [h]; decide)
      subst h
      rw [toLatex_code]
      cases parseCode (.mk "code".toList cs v d u o l f a) <;> simp [Except.map]
    · refine undefined_iff_of_ne _ ?_ (by show t ≠ "image".toList; rw [h]; decide)
      subst h
      rw [toLatex_html]
      simp
    · subst h
      rw [toLatex_image]
      constructor
      · intro h
        injection h with h
        exact ⟨rfl, h⟩
      · intro h
        rw [h.2]
  · refine undefined_iff_of_ne _ ?_ ?_
    · rw [toLatex_unknown t hk]
      simp
    · intro h
      have h2 : t = "image".toList := h
      rw [h2] at hk
      exact hk (by decide)

theorem carriesMetadata_of_not_traversed (n : Node) (ht : n.type ∉ traversedTypes)
    (h : n.type = "code".toList → n.frontmatter ≠ none) : carriesMetadata n := by
  intro m hm hc
  rw [reaches_of_not_traversed n m hm ht] at hc ⊢
  exact h hc

theorem carriesMetadata_of_children (t : Str) (cs : List Node) (v : Str) (d : Nat) (u : Str)
    (o : Option Bool) (l : Option Str) (f : Option Frontmatter) (a : Option Str)
    (ht : t ≠ "code".toList) (h : ∀ c ∈ cs, carriesMetadata c) :
    carriesMetadata (.mk t cs v d u o l f a) := by
  intro m hm hc
  cases hm with
  | self => exact absurd hc ht
  | child _ _ _ _ _ _ _ _ _ c _ h1 h2 h3 => exact h c h2 m h3 hc

theorem not_missingMetadata_of_carries (n m : Node) (hfm : carriesMetadata n)
    (hm : Reaches n m) : ¬ missingMetadata m :=
  fun h => hfm m hm h.1 h.2.2

theorem toLatex_fails_iff_of_carries (n : Node) (hfm : carriesMetadata n) :
    (∃ e, toLatex n = .error e) ↔ ∃ m, Reaches n m ∧ (unknownType m ∨ unknownDirective m) := by
  rw [toLatex_fails_iff]
  constructor
  · rintro ⟨m, hm, h | h | h⟩
    · exact ⟨m, hm, Or.inl h⟩
    · exact ⟨m, hm, Or.inr h⟩
    · exact absurd h (not_missingMetadata_of_carries n m hfm hm)
  · rintro ⟨m, hm, h | h⟩
    · exact ⟨m, hm, Or.inl h⟩
    · exact ⟨m, hm, Or.inr (Or.inl h)⟩

/-- C4, as the claim states it, fails: the image node with url "a.gif" is a
tree in which the traversal reaches no node of unknown type and no code node
with an unknown tag, and `toLatex` does not return a string for it: its
result is `undefined`. -/
theorem toLatex_failure_claim_refuted :
    (¬ ∃ m, Reaches (Node.image "a.gif".toList none) m ∧
        (unknownType m ∨ unknownDirective m)) ∧
    toLatex (Node.image "a.gif".toList none) = .ok none ∧
    ¬ ∃ s : Str, toLatex (Node.image "a.gif".toList none) = .ok (some s) := by
  have h0 : toLatex (Node.image "a.gif".toList none) = .ok none := rfl
  refine ⟨?_, h0, ?_⟩
  · rintro ⟨m, hm, hf⟩
    have h := reaches_of_not_traversed _ m hm (by decide)
    subst h
    rcases hf with hf | hf
    · exact hf (by decide)
    · exact absurd hf.1 (by decide)
  · rintro ⟨s, hs⟩
    rw [h0] at hs
    injection hs with hs
    cases hs

/-- C4, amended: on a tree whose code nodes carry directive metadata, as the
trees of parsed documents do, `toLatex` throws exactly when its traversal (the
node itself, then the children of root, paragraph, listItem, heading, link and
list nodes) reaches a node whose type has no case or a code node whose
language tag is none of "figure", "csv" and "".  So a reached node of unknown
type (blockquote, table, footnoteDefinition, delete, ...) always makes the
rendering throw, and when no such node is reached `toLatex` returns; what it
returns is a string, except that an image node whose extension `parseImage`
has no case for gives `undefined`. -/
theorem toLatex_failure (n : Node) (hfm : carriesMetadata n) :
    ((∃ e, toLatex n = .error e) ↔
      ∃ m, Reaches n m ∧ (unknownType m ∨ unknownDirective m)) ∧
    (∀ m, Reaches n m → m.type ∉ knownTypes → ∃ e, toLatex n = .error e) ∧
    ("blockquote".toList ∉ knownTypes ∧ "table".toList ∉ knownTypes ∧
      "footnoteDefinition".toList ∉ knownTypes ∧ "footnoteReference".toList ∉ knownTypes ∧
      "delete".toList ∉ knownTypes) ∧
    ((¬ ∃ m, Reaches n m ∧ (unknownType m ∨ unknownDirective m)) →
      ∃ r, toLatex n = .ok r ∧
        (r = none ↔ n.type = "image".toList ∧ parseImage n = none)) := by
  refine ⟨toLatex_fails_iff_of_carries n hfm, ?_, by decide, ?_⟩
  · intro m hm ht
    exact (toLatex_fails_iff n).2 ⟨m, hm, Or.inl ht⟩
  · intro h
    cases hr : toLatex n with
    | error e => exact absurd ((toLatex_fails_iff_of_carries n hfm).1 ⟨e, hr⟩) h
    | ok r =>
      refine ⟨r, rfl, ?_⟩
      rw [← toLatex_undefined_iff, hr]
      constructor
      · intro h2
        rw [h2]
      · intro h2
        injection h2

/-- Witness of C4: a paragraph that holds a blockquote throws, and so does a
code block tagged "js" that carries its metadata. -/
theorem toLatex_failure_witness :
    carriesMetadata (Node.parent "paragraph" [Node.leaf "blockquote" ""]) ∧
    (∃ e, toLatex (Node.parent "paragraph" [Node.leaf "blockquote" ""]) = .error e) ∧
    toLatex (Node.parent "paragraph" [Node.leaf "blockquote" ""]) =
      .error (.error "unknown".toList) :=
  ⟨carriesMetadata_of_children _ _ _ _ _ _ _ _ _ (by decide) (fun c hc => by
      rw [List.mem_singleton.1 hc]
      exact carriesMetadata_of_not_traversed _ (by decide) (fun h => absurd h (by decide))),
    (toLatex_failure (Node.parent "paragraph" [Node.leaf "blockquote" ""])
      (carriesMetadata_of_children _ _ _ _ _ _ _ _ _ (by decide) (fun c hc => by
        rw [List.mem_singleton.1 hc]
        exact carriesMetadata_of_not_traversed _ (by decide)
          (fun h => absurd h (by decide))))).2.1
      (Node.leaf "blockquote" "")
      (Reaches.child _ _ _ _ _ _ _ _ _ _ _ (by decide) (List.mem_singleton.2 rfl)
        (Reaches.self _))
      (by decide),
    rfl⟩

/-! ## The csv directive -/

theorem replaceAll_append (c : Char) (rep : Str) (s t : Str) :
    replaceAll c rep (s ++ t) = replaceAll c rep s ++ replaceAll c rep t := by
  induction s with
  | nil => rfl
  | cons x xs ih =>
    by_cases h : x = c
    · simp [replaceAll, h, ih]
    · simp [replaceAll, h, ih]

theorem transformRow_nil : transformRow [] = [] := rfl

theorem transformRow_cons (c : Char) (cs : Str) :
    transformRow (c :: cs) = transformChar c ++ transformRow cs := by
  unfold transformRow transformChar
  by_cases h1 : c = '&'
  · subst h1
    rw [replaceAll, if_pos rfl, replaceAll_append]
    rfl
  · by_cases h2 : c = ','
    · subst h2
      rw [replaceAll, if_neg h1, replaceAll, if_pos rfl, if_neg h1, if_pos rfl]
      rfl
    · rw [replaceAll, if_neg h1, replaceAll, if_neg h2, if_neg h1, if_neg h2]
      rfl

theorem transformRow_flatMap (r : Str) : transformRow r = r.flatMap transformChar := by
  induction r with
  | nil => rfl
  | cons c cs ih => rw [transformRow_cons, ih, List.flatMap_cons]

theorem transformRow_no_comma (r : Str) : ',' ∉ transformRow r := by
  induction r with
  | nil => simp [transformRow_nil]
  | cons c cs ih =>
    rw [transformRow_cons, List.mem_append]
    rintro (h | h)
    · unfold transformChar at h
      by_cases h1 : c = '&'
      · rw [if_pos h1] at h
        revert h
        decide
      · by_cases h2 : c = ','
        · rw [if_neg h1, if_pos h2] at h
          revert h
          decide
        · rw [if_neg h1, if_neg h2, List.mem_singleton] at h
          exact h2 h.symm
    · exact ih h

theorem unescapedAmpsAfter_transformRow (r : Str) (hr : '\\' ∉ r) (prev : Option Char)
    (hp : prev ≠ some '\\') :
    unescapedAmpsAfter prev (transformRow r) = r.count ',' := by
  induction r generalizing prev with
  | nil => rfl
  | cons c cs ih =>
    have hc : c ≠ '\\' := fun h => hr (by rw [h]; exact List.mem_cons_self _ _)
    have hcs : '\\' ∉ cs := fun h => hr (List.mem_cons_of_mem _ h)
    rw [transformRow_cons]
    unfold transformChar
    by_cases h1 : c = '&'
    · subst h1
      rw [if_pos rfl]
      change unescapedAmpsAfter prev ('\\' :: '&' :: transformRow cs) = _
      rw [unescapedAmpsAfter, unescapedAmpsAfter, ih hcs (some '&') (by decide)]
      simp
    · by_cases h2 : c = ','
      · subst h2
        rw [if_neg h1, if_pos rfl]
        change unescapedAmpsAfter prev ('&' :: transformRow cs) = _
        rw [unescapedAmpsAfter, ih hcs (some '&') (by decide)]
        simp [hp]
        omega
      · rw [if_neg h1, if_neg h2]
        change unescapedAmpsAfter prev (c :: transformRow cs) = _
        rw [unescapedAmpsAfter, ih hcs (some c) (by simpa using hc)]
        have h3 : ¬ (',' = c) := fun h => h2 h.symm
        simp [h1, List.count_cons, h3]

/-- C7: the row transformation replaces every `&` by backslash-`&` and then
every `,` by `&`; so each `&` of the row comes out preceded by a backslash,
each comma comes out as `&`, every other character is kept, no comma is left,
and for a row without backslash the `&` of the result that are not preceded
by a backslash are as many as the commas of the row. -/
theorem row_transformation (r : Str) :
    transformRow r = replaceAll ',' ['&'] (replaceAll '&' ['\\', '&'] r) ∧
    transformRow r =
      r.flatMap (fun c => if c = '&' then ['\\', '&'] else if c = ',' then ['&'] else [c]) ∧
    ',' ∉ transformRow r ∧
    ('\\' ∉ r → unescapedAmps (transformRow r) = r.count ',') :=
  ⟨rfl, transformRow_flatMap r, transformRow_no_comma r,
    fun hr => unescapedAmpsAfter_transformRow r hr none (by decide)⟩

/-- Witness of C7: the row "a&b,c,d" has two commas and its transformation
two column separators. -/
theorem row_transformation_witness :
    '\\' ∉ "a&b,c,d".toList ∧
    transformRow "a&b,c,d".toList = "a\\&b&c&d".toList ∧
    unescapedAmps (transformRow "a&b,c,d".toList) = 2 :=
  ⟨by decide, rfl, (row_transformation "a&b,c,d".toList).2.2.2 (by decide)⟩

theorem split_ne_nil (sep : Char) (s : Str) : split sep s ≠ [] := by
  cases s with
  | nil => simp [split]
  | cons x xs =>
    rw [split]
    by_cases h : x = sep
    · simp [h]
    · rw [if_neg h]
      cases split sep xs <;> simp

theorem mapFrom_csvRow (i : Nat) (rows : List Str) :
    mapFrom csvRow (i + 2) rows = rows.map transformRow := by
  induction rows generalizing i with
  | nil => rfl
  | cons r rs ih =>
    rw [mapFrom, ih (i + 1), List.map_cons]
    simp [csvRow]

theorem mapWithIndex_csvRow (rows : List Str) :
    mapWithIndex csvRow rows = tabularRows rows := by
  match rows with
  | [] => rfl
  | [r0] => rfl
  | r0 :: r1 :: rest =>
    unfold mapWithIndex
    rw [mapFrom, mapFrom, mapFrom_csvRow 0 rest]
    rfl

theorem parseCode_csv (n : Node) (hl : n.lang = some "csv".toList) (fm : Frontmatter)
    (hf : n.frontmatter = some fm) :
    parseCode n =
      .ok ("\\begin\x7btable\x7d\n\\centering\\begin\x7btabular\x7d\x7b".toList
        ++ toStr fm.alignment ++ "\x7d".toList
        ++ join "\\\\".toList (mapWithIndex csvRow (split '\n' n.value))
        ++ "\\end\x7btabular\x7d".toList
        ++ optionalPart "\\label\x7btab:".toList fm.label
        ++ optionalPart "\\caption\x7b".toList fm.caption
        ++ "\\end\x7btable\x7d".toList) := by
  unfold parseCode
  simp only []
  rw [if_neg (by rw [hl]; decide), if_pos hl, hf]
  simp only []
  cases h1 : truthy fm.label <;> cases h2 : truthy fm.caption <;>
    simp [optionalPart, h1, h2]

theorem parseCode_figure (n : Node) (hl : n.lang = some "figure".toList) (fm : Frontmatter)
    (hf : n.frontmatter = some fm) :
    parseCode n =
      .ok ("\\begin\x7bfigure\x7d\n".toList ++ n.value ++ "\n".toList
        ++ optionalPart "\\label\x7bfig:".toList fm.label
        ++ optionalPart "\\caption\x7b".toList fm.caption
        ++ "\\end\x7bfigure\x7d\n".toList) := by
  unfold parseCode
  simp only []
  rw [if_pos hl, hf]
  simp only []
  cases h1 : truthy fm.label <;> cases h2 : truthy fm.caption <;>
    simp [optionalPart, h1, h2]

/-- C6: a csv code block with alignment `A` and no label or caption, whose
value splits on newline into the rows `r0 :: rest`, renders to the opening of
the table and tabular environments with `A` as the column specification, then
the transformed rows joined by two backslashes (none after the last row), then
the closing of tabular and table.  Only the row at index 1 gets the
backslash-hline and newline in front: one row gives none, two or more give
exactly one. -/
theorem csv_table (A v r0 : Str) (rest : List Str) (h : split '\n' v = r0 :: rest) :
    parseCode (Node.code (some "csv".toList) v (some ⟨none, none, some A⟩)) =
      .ok ("\\begin\x7btable\x7d\n\\centering\\begin\x7btabular\x7d\x7b".toList ++ A
        ++ "\x7d".toList
        ++ join "\\\\".toList (tabularRows (r0 :: rest))
        ++ "\\end\x7btabular\x7d\\end\x7btable\x7d".toList) ∧
    tabularRows [r0] = [transformRow r0] ∧
    (∀ (r1 : Str) (rs : List Str),
      tabularRows (r0 :: r1 :: rs) =
        transformRow r0 :: (['\\', 'h', 'l', 'i', 'n', 'e', '\n'] ++ transformRow r1) ::
          rs.map transformRow) ∧
    (∀ a : Str, join "\\\\".toList [a] = a) ∧
    (∀ (a b : Str) (rs : List Str),
      join "\\\\".toList (a :: b :: rs) = a ++ ['\\', '\\'] ++ join "\\\\".toList (b :: rs)) := by
  refine ⟨?_, rfl, fun _ _ => rfl, fun _ => rfl, fun _ _ _ => rfl⟩
  rw [parseCode_csv (Node.code (some "csv".toList) v (some ⟨none, none, some A⟩)) rfl
    ⟨none, none, some A⟩ rfl]
  simp only [Node.code, Node.value]
  rw [h, mapWithIndex_csvRow]
  simp [optionalPart, truthy, toStr]

/-- Witness of C6: the value "a,b\nc,d\ne,f" with alignment "ll" has the
tabular body `a&b\\\hline<newline>c&d\\e&f`. -/
theorem csv_table_witness :
    split '\n' "a,b\nc,d\ne,f".toList = ["a,b".toList, "c,d".toList, "e,f".toList] ∧
    parseCode (Node.code (some "csv".toList) "a,b\nc,d\ne,f".toList
        (some ⟨none, none, some "ll".toList⟩)) =
      .ok ("\\begin\x7btable\x7d\n\\centering\\begin\x7btabular\x7d\x7bll\x7d".toList
        ++ "a&b\\\\\\hline\nc&d\\\\e&f".toList
        ++ "\\end\x7btabular\x7d\\end\x7btable\x7d".toList) :=
  ⟨rfl, (csv_table "ll".toList "a,b\nc,d\ne,f".toList "a,b".toList
    ["c,d".toList, "e,f".toList] rfl).1⟩

/-! ## The figure directive -/

theorem optionalPart_some (pre L : Str) (h : L ≠ []) :
    optionalPart pre (some L) = pre ++ L ++ ['\x7d', '\n'] := by
  cases L with
  | nil => exact absurd rfl h
  | cons c cs => rfl

/-- C8, as the claim states it, fails: a figure code block whose label is
present but is the empty string gets no label line (the test on the label is
a truthiness test), where the claim has one for every label that is
present. -/
theorem figure_label_claim_refuted :
    parseCode (Node.code (some "figure".toList) "x".toList (some ⟨some [], none, none⟩)) =
      .ok "\\begin\x7bfigure\x7d\nx\n\\end\x7bfigure\x7d\n".toList ∧
    parseCode (Node.code (some "figure".toList) "x".toList (some ⟨some [], none, none⟩)) ≠
      .ok "\\begin\x7bfigure\x7d\nx\n\\label\x7bfig:\x7d\n\\end\x7bfigure\x7d\n".toList := by
  have h : parseCode
      (Node.code (some "figure".toList) "x".toList (some ⟨some [], none, none⟩)) =
      .ok "\\begin\x7bfigure\x7d\nx\n\\end\x7bfigure\x7d\n".toList := rfl
  refine ⟨h, ?_⟩
  rw [h]
  intro hc
  have hlen := congrArg (fun r => r.toOption.map List.length) hc
  revert hlen
  decide

/-- C8, amended: a figure code block with value `v` and directive metadata
renders to the opening of the figure environment, `v` unchanged, then the
label line exactly when the label is present and not the empty string, then
the caption line exactly when the caption is present and not the empty
string, then the closing of the environment; with neither, nothing stands
between `v` and the closing. -/
theorem figure_rendering (v : Str) (fm : Frontmatter) (al : Option Str) :
    parseCode (Node.code (some "figure".toList) v (some fm)) =
      .ok ("\\begin\x7bfigure\x7d\n".toList ++ v ++ "\n".toList
        ++ optionalPart "\\label\x7bfig:".toList fm.label
        ++ optionalPart "\\caption\x7b".toList fm.caption
        ++ "\\end\x7bfigure\x7d\n".toList) ∧
    (∀ pre L : Str, L ≠ [] → optionalPart pre (some L) = pre ++ L ++ ['\x7d', '\n']) ∧
    (∀ pre : Str, optionalPart pre (some []) = []) ∧
    (∀ pre : Str, optionalPart pre none = []) ∧
    parseCode (Node.code (some "figure".toList) v (some ⟨none, none, al⟩)) =
      .ok ("\\begin\x7bfigure\x7d\n".toList ++ v ++ "\n".toList
        ++ "\\end\x7bfigure\x7d\n".toList) := by
  refine ⟨parseCode_figure (Node.code (some "figure".toList) v (some fm)) rfl fm rfl,
    optionalPart_some, fun _ => rfl, fun _ => rfl, ?_⟩
  rw [parseCode_figure (Node.code (some "figure".toList) v (some ⟨none, none, al⟩)) rfl
    ⟨none, none, al⟩ rfl]
  simp [optionalPart, truthy, Node.code, Node.value]

/-! ## Images -/

theorem lastIndexOf_of_not_mem (c : Char) (s : Str) (h : c ∉ s) : lastIndexOf c s = -1 := by
  induction s with
  | nil => rfl
  | cons x xs ih =>
    have hx : x ≠ c := fun e => h (by rw [e]; exact List.mem_cons_self _ _)
    have hxs : c ∉ xs := fun e => h (List.mem_cons_of_mem _ e)
    rw [lastIndexOf, ih hxs]
    simp [hx]

theorem lastIndexOf_append_cons (c : Char) (pre e : Str) (h : c ∉ e) :
    lastIndexOf c (pre ++ c :: e) = pre.length := by
  induction pre with
  | nil =>
    rw [List.nil_append, lastIndexOf, lastIndexOf_of_not_mem c e h]
    simp
  | cons x xs ih =>
    rw [List.cons_append, lastIndexOf, ih]
    simp

theorem extension_suffix (pre e : Str) (h : '.' ∉ e) : extension (pre ++ '.' :: e) = e := by
  unfold extension slice
  rw [lastIndexOf_append_cons '.' pre e h]
  have h1 : ¬ ((pre.length : Int) + 1 < 0) := by omega
  rw [if_neg h1]
  have h2 : ((pre.length : Int) + 1).toNat = pre.length + 1 := by omega
  rw [h2]
  simp

theorem parseImage_figure (n : Node)
    (h : extension n.url = "png".toList ∨ extension n.url = "jpg".toList ∨
      extension n.url = "jpeg".toList) :
    parseImage n =
      some ("\\begin\x7bfigure\x7d\n\\centering\n\\includegraphics[width=0.25\\linewidth]\x7b".toList
        ++ n.url ++ "\x7d\n".toList
        ++ optionalPart "\\caption\x7b".toList n.alt
        ++ "\\end\x7bfigure\x7d\n".toList) := by
  have hb : extension n.url ≠ "bib".toList := by
    rcases h with h | h | h <;> rw [h] <;> decide
  have hc : extension n.url ≠ "csv".toList := by
    rcases h with h | h | h <;> rw [h] <;> decide
  unfold parseImage
  simp only []
  rw [if_neg hb, if_neg hc, if_pos h]
  cases h1 : truthy n.alt <;> simp [optionalPart, h1]

theorem parseImage_suppressed (n : Node)
    (h : extension n.url = "bib".toList ∨ extension n.url = "csv".toList) :
    parseImage n = some [] := by
  unfold parseImage
  simp only []
  rcases h with h | h
  · rw [if_pos h]
  · rw [if_neg (by rw [h]; decide), if_pos h]

/-- C9: for an image whose url has extension png, jpg or jpeg (what follows
the last '.'), `parseImage` returns the opening of a figure environment, the
centering line, the includegraphics line at a quarter of the line width
holding the url unchanged, then the caption line of the alt text exactly when
alt text is present, then the closing of the environment.  An image without
alt text has the empty string, or no value, as `alt`: both give no caption
line.  A url ending in ".png" with alt text "diagram" has the caption line of
"diagram". -/
theorem image_figure (url : Str) (alt : Option Str)
    (h : extension url = "png".toList ∨ extension url = "jpg".toList ∨
      extension url = "jpeg".toList) :
    parseImage (Node.image url alt) =
      some ("\\begin\x7bfigure\x7d\n\\centering\n".toList
        ++ "\\includegraphics[width=0.25\\linewidth]\x7b".toList ++ url ++ "\x7d\n".toList
        ++ optionalPart "\\caption\x7b".toList alt
        ++ "\\end\x7bfigure\x7d\n".toList) ∧
    (∀ a : Str, a ≠ [] →
      optionalPart "\\caption\x7b".toList (some a) = "\\caption\x7b".toList ++ a ++ "\x7d\n".toList) ∧
    optionalPart "\\caption\x7b".toList (some []) = [] ∧
    optionalPart "\\caption\x7b".toList none = [] ∧
    (∀ pre : Str,
      parseImage (Node.image (pre ++ ".png".toList) (some "diagram".toList)) =
        some ("\\begin\x7bfigure\x7d\n\\centering\n".toList
          ++ "\\includegraphics[width=0.25\\linewidth]\x7b".toList ++ (pre ++ ".png".toList)
          ++ "\x7d\n".toList
          ++ "\\caption\x7bdiagram\x7d\n".toList
          ++ "\\end\x7bfigure\x7d\n".toList)) := by
  refine ⟨?_, fun a ha => optionalPart_some _ a ha, rfl, rfl, ?_⟩
  · rw [parseImage_figure (Node.image url alt) h]
    simp [Node.image, Node.url, Node.alt]
  · intro pre
    rw [parseImage_figure (Node.image (pre ++ ".png".toList) (some "diagram".toList))
      (Or.inl (extension_suffix pre "png".toList (by decide)))]
    simp [Node.image, Node.url, Node.alt, optionalPart, truthy, toStr]

/-- Witness of C9: the image "d.png" with alt text "diagram". -/
theorem image_figure_witness :
    extension "d.png".toList = "png".toList ∧
    parseImage (Node.image "d.png".toList (some "diagram".toList)) =
      some ("\\begin\x7bfigure\x7d\n\\centering\n".toList
        ++ "\\includegraphics[width=0.25\\linewidth]\x7bd.png\x7d\n".toList
        ++ "\\caption\x7bdiagram\x7d\n".toList
        ++ "\\end\x7bfigure\x7d\n".toList) :=
  ⟨rfl, (image_figure "d.png".toList (some "diagram".toList) (Or.inl rfl)).1⟩

/-! ## Suppressed nodes -/

theorem concatLoop_insert_empty (n : Node) (hn : toLatex n = .ok (some []))
    (xs ys : List Node) : concatLoop [] (xs ++ n :: ys) = concatLoop [] (xs ++ ys) := by
  rw [concatLoop_append, concatLoop_append]
  cases concatLoop [] xs with
  | error e => rfl
  | ok s =>
    simp only []
    rw [concatLoop, hn]
    simp [toStr]

/-- C10: an html node (whatever its value) and an image node whose url ends
in ".bib" or ".csv" (whatever its alt text) render to the empty string, so
putting such a node anywhere among the children of a root, paragraph or
listItem leaves the rendering of that container unchanged. -/
theorem suppressed_nodes (n : Node)
    (h : n.type = "html".toList ∨
      (n.type = "image".toList ∧
        ∃ pre : Str, n.url = pre ++ ".bib".toList ∨ n.url = pre ++ ".csv".toList)) :
    toLatex n = .ok (some []) ∧
    ∀ (t : Str) (xs ys : List Node) (v : Str) (d : Nat) (u : Str) (o : Option Bool)
      (l : Option Str) (f : Option Frontmatter) (a : Option Str), isContainer t →
      toLatex (.mk t (xs ++ n :: ys) v d u o l f a) = toLatex (.mk t (xs ++ ys) v d u o l f a) := by
  have hn : toLatex n = .ok (some []) := by
    obtain ⟨t, cs, v, d, u, o, l, f, a⟩ := n
    rcases h with h | ⟨h, pre, hu⟩
    · have h2 : t = "html".toList := h
      subst h2
      exact toLatex_html cs v d u o l f a
    · have h2 : t = "image".toList := h
      subst h2
      rw [toLatex_image, parseImage_suppressed]
      rcases hu with hu | hu
      · have h3 : u = pre ++ ".bib".toList := hu
        subst h3
        exact Or.inl (extension_suffix pre "bib".toList (by decide))
      · have h3 : u = pre ++ ".csv".toList := hu
        subst h3
        exact Or.inr (extension_suffix pre "csv".toList (by decide))
  refine ⟨hn, ?_⟩
  intro t xs ys v d u o l f a ht
  rw [toLatex_container t ht, toLatex_container t ht, concatLoop_insert_empty n hn]

/-- Witness of C10: the image "refs.bib" with an alt text, between two text
nodes of a paragraph. -/
theorem suppressed_nodes_witness :
    toLatex (Node.image "refs.bib".toList (some "x".toList)) = .ok (some []) ∧
    toLatex (Node.parent "paragraph"
        ([Node.leaf "text" "a"] ++
          Node.image "refs.bib".toList (some "x".toList) :: [Node.leaf "text" "b"])) =
      toLatex (Node.parent "paragraph" ([Node.leaf "text" "a"] ++ [Node.leaf "text" "b"])) :=
  ⟨(suppressed_nodes (Node.image "refs.bib".toList (some "x".toList))
      (Or.inr ⟨rfl, "refs".toList, Or.inl rfl⟩)).1,
    (suppressed_nodes (Node.image "refs.bib".toList (some "x".toList))
      (Or.inr ⟨rfl, "refs".toList, Or.inl rfl⟩)).2 "paragraph".toList
      [Node.leaf "text" "a"] [Node.leaf "text" "b"] [] 0 [] none none none none
      (Or.inr (Or.inl rfl))⟩

/-! ## The scan of the template -/

theorem replaceTokens_skip (g : Str → Except JSError Str) (xs rest : Str) :
    replaceTokens g xs.length (xs ++ rest) = replaceTokens g 0 rest := by
  induction xs with
  | nil => rfl
  | cons x xs ih =>
    rw [List.length_cons, List.cons_append, replaceTokens]
    exact ih

theorem takeWhile_word (w rest : Str) (hw : ∀ c ∈ w, isWordChar c = true) :
    (w ++ '%' :: rest).takeWhile isWordChar = w ∧
      (w ++ '%' :: rest).dropWhile isWordChar = '%' :: rest := by
  induction w with
  | nil =>
    have h : isWordChar '%' = false := by decide
    simp [List.takeWhile, List.dropWhile, h]
  | cons x xs ih =>
    have hx : isWordChar x = true := hw x (List.mem_cons_self _ _)
    have hxs := ih (fun c hc => hw c (List.mem_cons_of_mem _ hc))
    simp [List.takeWhile, List.dropWhile, hx, hxs.1, hxs.2]

theorem matchToken_token (w rest : Str) (hne : w ≠ [])
    (hw : ∀ c ∈ w, isWordChar c = true) :
    matchToken ('%' :: (w ++ '%' :: rest)) = some w := by
  obtain ⟨h1, h2⟩ := takeWhile_word w rest hw
  cases w with
  | nil => exact absurd rfl hne
  | cons x xs =>
    rw [matchToken, if_pos rfl, h1, h2]
    simp

theorem noTokenBefore_of_not_mem (pre suf : Str) (h : '%' ∉ pre) : NoTokenBefore pre suf := by
  intro p q hpq hq
  cases q with
  | nil => exact absurd rfl hq
  | cons c cs =>
    have hc : c ≠ '%' := by
      rintro rfl
      exact h (by rw [hpq]; simp)
    rw [List.cons_append, matchToken, if_neg hc]

theorem noTokenBefore_tail (c : Char) (pre suf : Str) (h : NoTokenBefore (c :: pre) suf) :
    NoTokenBefore pre suf := by
  intro p q hpq hq
  exact h (c :: p) q (by rw [hpq]; rfl) hq

theorem replaceTokens_text (g : Str → Except JSError Str) (pre suf : Str)
    (h : NoTokenBefore pre suf) :
    replaceTokens g 0 (pre ++ suf) =
      match replaceTokens g 0 suf with
      | .error e => .error e
      | .ok o => .ok (pre ++ o) := by
  induction pre with
  | nil =>
    rw [List.nil_append]
    cases replaceTokens g 0 suf <;> rfl
  | cons c cs ih =>
    have hm : matchToken (c :: cs ++ suf) = none := h [] (c :: cs) rfl (by simp)
    rw [List.cons_append, replaceTokens, ← List.cons_append, hm]
    simp only []
    rw [ih (noTokenBefore_tail c cs suf h)]
    cases replaceTokens g 0 suf <;> rfl

theorem replaceTokens_token (g : Str → Except JSError Str) (pre w rest : Str)
    (h : NoTokenBefore pre ('%' :: (w ++ '%' :: rest))) (hne : w ≠ [])
    (hw : ∀ c ∈ w, isWordChar c = true) :
    replaceTokens g 0 (pre ++ '%' :: (w ++ '%' :: rest)) =
      match g w with
      | .error e => .error e
      | .ok r =>
        match replaceTokens g 0 rest with
        | .error e => .error e
        | .ok o => .ok (pre ++ r ++ o) := by
  have hskip : replaceTokens g (w.length + 1) (w ++ '%' :: rest) = replaceTokens g 0 rest := by
    have h1 := replaceTokens_skip g (w ++ ['%']) rest
    simp only [List.length_append, List.length_singleton, List.append_assoc,
      List.singleton_append] at h1
    exact h1
  rw [replaceTokens_text g pre _ h, replaceTokens, matchToken_token w rest hne hw]
  simp only []
  rw [hskip]
  cases g w with
  | error e => rfl
  | ok r =>
    cases replaceTokens g 0 rest with
    | error e => rfl
    | ok o => simp

theorem replaceTokens_no_token (g : Str → Except JSError Str) (t : Str)
    (h : NoTokenBefore t []) : replaceTokens g 0 t = .ok t := by
  have h1 := replaceTokens_text g t [] h
  rw [List.append_nil] at h1
  rw [h1]
  simp [replaceTokens]

/-! ## Metadata extraction -/

theorem toLatexPlugin_cons (parse : Str → Except JSError Metadata) (template : Str)
    (t : Str) (n : Node) (cs : List Node) (v : Str) (d : Nat) (u : Str) (o : Option Bool)
    (l : Option Str) (f : Option Frontmatter) (a : Option Str) :
    toLatexPlugin parse template (.mk t (n :: cs) v d u o l f a) =
      match getYaml parse (some n) with
      | .error e => .error e
      | .ok frontmatter => replaceTokens (replacer frontmatter (.mk t cs v d u o l f a)) 0 template :=
  rfl

theorem getYaml_yaml (parse : Str → Except JSError Metadata) (n : Node)
    (h : n.type = "yaml".toList) : getYaml parse (some n) = parse n.value := by
  unfold getYaml
  simp only []
  rw [if_neg (by simpa using h)]

theorem getYaml_other (parse : Str → Except JSError Metadata) (n : Node)
    (h : n.type ≠ "yaml".toList) :
    getYaml parse (some n) = .error (.error "no frontmatter".toList) := by
  unfold getYaml
  simp only []
  rw [if_pos h]

/-- C11, as the claim states it, fails: on a tree whose first child is a
metadata node of type toml, extraction does not succeed; it throws the error
"no frontmatter", and so does the whole conversion. -/
theorem metadata_toml_refuted :
    getYaml (fun _ => .ok (.mapping [])) (some (Node.leaf "toml" "title = 1")) =
      .error (.error "no frontmatter".toList) ∧
    toLatexPlugin (fun _ => .ok (.mapping [])) "%body%".toList
        (Node.parent "root" [Node.leaf "toml" "title = 1", Node.leaf "text" "Y"]) =
      .error (.error "no frontmatter".toList) :=
  ⟨rfl, rfl⟩

/-- C11, amended: on a tree whose first child is a node of type yaml,
metadata extraction is the decoding of that node's value (it succeeds when
`YAML.parse` accepts the value); on a tree whose first child has any other
type, type toml included, it throws the error "no frontmatter", and then the
conversion throws that error whatever the template and the rest of the tree:
nothing is printed. -/
theorem metadata_extraction (parse : Str → Except JSError Metadata) (template : Str)
    (t : Str) (n : Node) (cs : List Node) (v : Str) (d : Nat) (u : Str) (o : Option Bool)
    (l : Option Str) (f : Option Frontmatter) (a : Option Str) :
    (n.type = "yaml".toList →
      getYaml parse (shift (.mk t (n :: cs) v d u o l f a)).1 = parse n.value) ∧
    (n.type ≠ "yaml".toList →
      getYaml parse (shift (.mk t (n :: cs) v d u o l f a)).1 =
        .error (.error "no frontmatter".toList) ∧
      toLatexPlugin parse template (.mk t (n :: cs) v d u o l f a) =
        .error (.error "no frontmatter".toList)) ∧
    (n.type = "toml".toList →
      toLatexPlugin parse template (.mk t (n :: cs) v d u o l f a) =
        .error (.error "no frontmatter".toList)) := by
  have hother : n.type ≠ "yaml".toList →
      toLatexPlugin parse template (.mk t (n :: cs) v d u o l f a) =
        .error (.error "no frontmatter".toList) := by
    intro h
    rw [toLatexPlugin_cons, getYaml_other parse n h]
  refine ⟨fun h => getYaml_yaml parse n h, fun h => ⟨getYaml_other parse n h, hother h⟩, ?_⟩
  intro h
  exact hother (by rw [h]; decide)

/-- Witness of C11: a yaml block is decoded, a paragraph in first place is
refused. -/
theorem metadata_extraction_witness :
    getYaml (fun _ => .ok (.mapping [("title".toList, "X".toList)]))
        (shift (Node.parent "root" [Node.leaf "yaml" "title: X"])).1 =
      .ok (.mapping [("title".toList, "X".toList)]) ∧
    toLatexPlugin (fun _ => .ok (.mapping [("title".toList, "X".toList)])) "%body%".toList
        (Node.parent "root" [Node.parent "paragraph" []]) =
      .error (.error "no frontmatter".toList) :=
  ⟨(metadata_extraction (fun _ => .ok (.mapping [("title".toList, "X".toList)])) []
      "root".toList (Node.leaf "yaml" "title: X") [] [] 0 [] none none none none).1 rfl,
    ((metadata_extraction (fun _ => .ok (.mapping [("title".toList, "X".toList)]))
      "%body%".toList
      "root".toList (Node.parent "paragraph" []) [] [] 0 [] none none none none).2.1
      (by decide)).2⟩

/-- C12: extraction takes the first child off the tree and leaves the other
children in place, so with the template "%body%" what is printed is the
concatenation of the renderings of the remaining children (or their first
exception): the metadata node is not rendered. -/
theorem metadata_removed (parse : Str → Except JSError Metadata) (m : Node)
    (frontmatter : Metadata) (hm : m.type = "yaml".toList)
    (hp : parse m.value = .ok frontmatter) (cs : List Node) (v : Str) (d : Nat) (u : Str)
    (o : Option Bool) (l : Option Str) (f : Option Frontmatter) (a : Option Str) :
    shift (.mk "root".toList (m :: cs) v d u o l f a) =
      (some m, .mk "root".toList cs v d u o l f a) ∧
    toLatexPlugin parse "%body%".toList (.mk "root".toList (m :: cs) v d u o l f a) =
      (cs.mapM toLatex).map (fun rs => rs.flatMap toStr) ∧
    ∀ template : Str,
      toLatexPlugin parse template (.mk "root".toList (m :: cs) v d u o l f a) =
        replaceTokens (replacer frontmatter (.mk "root".toList cs v d u o l f a)) 0 template := by
  have hall : ∀ template : Str,
      toLatexPlugin parse template (.mk "root".toList (m :: cs) v d u o l f a) =
        replaceTokens (replacer frontmatter (.mk "root".toList cs v d u o l f a)) 0
          template := by
    intro template
    rw [toLatexPlugin_cons, getYaml_yaml parse m hm, hp]
  refine ⟨rfl, ?_, hall⟩
  rw [hall]
  have h := replaceTokens_token (replacer frontmatter (.mk "root".toList cs v d u o l f a))
    [] "body".toList [] (fun p q hpq hq => by
      cases p <;> cases q <;> simp at hpq hq) (by decide) (by decide)
  have h2 : ([] : Str) ++ '%' :: ("body".toList ++ '%' :: []) = "%body%".toList := rfl
  rw [h2] at h
  rw [h]
  unfold replacer
  rw [if_pos rfl, container_concat_aux "root".toList (Or.inl rfl)]
  cases List.mapM toLatex cs <;> simp [Except.map, replaceTokens, toStr]

/-- Witness of C12: the metadata node, then two text nodes. -/
theorem metadata_removed_witness :
    toLatexPlugin (fun _ => .ok (.mapping [("title".toList, "X".toList)])) "%body%".toList
        (Node.parent "root"
          [Node.leaf "yaml" "title: X", Node.leaf "text" "a", Node.leaf "text" "b"]) =
      .ok "ab".toList :=
  (metadata_removed (fun _ => .ok (.mapping [("title".toList, "X".toList)]))
    (Node.leaf "yaml" "title: X") (.mapping [("title".toList, "X".toList)]) rfl rfl [Node.leaf "text" "a", Node.leaf "text" "b"]
    [] 0 [] none none none none).2.1

/-! ## Template substitution -/

theorem replacer_body (frontmatter : Metadata) (tree : Node) :
    replacer frontmatter tree "body".toList =
      match toLatex tree with
      | .error e => .error e
      | .ok r => .ok (toStr r) := by
  unfold replacer
  rw [if_pos rfl]

theorem replacer_other (entries : List (Str × Str)) (tree : Node) (w : Str)
    (h : w ≠ "body".toList) :
    replacer (.mapping entries) tree w =
      .ok (toStr (match lookup w entries with
        | some v => some v
        | none => lookup w objectPrototype)) := by
  unfold replacer getProperty
  rw [if_neg h]
  simp only []
  cases lookup w entries <;> rfl

theorem replacer_key (entries : List (Str × Str)) (tree : Node) (w val : Str)
    (h : w ≠ "body".toList) (hk : lookup w entries = some val) :
    replacer (.mapping entries) tree w = .ok val := by
  rw [replacer_other entries tree w h, hk]
  rfl

theorem replacer_null (tree : Node) (w : Str) (h : w ≠ "body".toList) :
    replacer .null tree w = .error .typeError := by
  unfold replacer getProperty
  rw [if_neg h]

/-- C13: the template is scanned from left to right for the tokens
`%identifier%`, the identifier being a non-empty run of word characters.
Where no match starts inside `pre`, the text `pre`, a token and `rest` give
`pre` unchanged, then what stands for the token, then the substitution of
`rest`: the rendered body for `%body%`, the value of the key for a key of the
metadata.  A template in which no match starts is returned unchanged; text
without `%` has no match starting in it. -/
theorem template_substitution (frontmatter : Metadata) (tree : Node) :
    (∀ pre w rest : Str, NoTokenBefore pre ('%' :: (w ++ '%' :: rest)) → w ≠ [] →
      (∀ c ∈ w, isWordChar c = true) →
      replaceTokens (replacer frontmatter tree) 0 (pre ++ '%' :: (w ++ '%' :: rest)) =
        match replacer frontmatter tree w with
        | .error e => .error e
        | .ok r =>
          match replaceTokens (replacer frontmatter tree) 0 rest with
          | .error e => .error e
          | .ok out => .ok (pre ++ r ++ out)) ∧
    replacer frontmatter tree "body".toList =
      (match toLatex tree with
       | .error e => .error e
       | .ok r => .ok (toStr r)) ∧
    (∀ (entries : List (Str × Str)) (w val : Str), frontmatter = .mapping entries →
      w ≠ "body".toList → lookup w entries = some val →
      replacer frontmatter tree w = .ok val) ∧
    (∀ template : Str, NoTokenBefore template [] →
      replaceTokens (replacer frontmatter tree) 0 template = .ok template) ∧
    (∀ pre suf : Str, '%' ∉ pre → NoTokenBefore pre suf) :=
  ⟨fun pre w rest h hne hw => replaceTokens_token _ pre w rest h hne hw,
    replacer_body frontmatter tree,
    fun entries w val hf h hk => by rw [hf]; exact replacer_key entries tree w val h hk,
    fun template h => replaceTokens_no_token _ template h,
    noTokenBefore_of_not_mem⟩

/-- Witness of C13: the template "Title: %title%\n%body%" with the metadata
title X and the body Y gives "Title: X\nY"; its first token stands after the
text "Title: ". -/
theorem template_substitution_witness :
    toLatexPlugin (fun _ => .ok (.mapping [("title".toList, "X".toList)])) "Title: %title%\n%body%".toList
        (Node.parent "root" [Node.leaf "yaml" "title: X", Node.leaf "text" "Y"]) =
      .ok "Title: X\nY".toList ∧
    replaceTokens (replacer (.mapping [("title".toList, "X".toList)])
        (Node.parent "root" [Node.leaf "text" "Y"])) 0
        ("Title: ".toList ++ '%' :: ("title".toList ++ '%' :: "\n%body%".toList)) =
      .ok "Title: X\nY".toList :=
  ⟨rfl,
    (template_substitution (.mapping [("title".toList, "X".toList)])
      (Node.parent "root" [Node.leaf "text" "Y"])).1
      "Title: ".toList "title".toList "\n%body%".toList
      (noTokenBefore_of_not_mem _ _ (by decide)) (by decide) (by decide)⟩

/-! ## Block math and plain text -/

/-- C14 on the code: a math node with value `v` renders to `[`, `v`, `]`,
without the backslashes of the display-math delimiters; for the value "x" the
result is "[x]" and not the text with a backslash before each bracket. -/
theorem math_rendering (cs : List Node) (v : Str) (d : Nat) (u : Str) (o : Option Bool)
    (l : Option Str) (f : Option Frontmatter) (a : Option Str) :
    toLatex (.mk "math".toList cs v d u o l f a) = .ok (some ('[' :: (v ++ [']']))) ∧
    toLatex (Node.leaf "math" "x") = .ok (some "[x]".toList) ∧
    toLatex (Node.leaf "math" "x") ≠ .ok (some "\\[x\\]".toList) := by
  refine ⟨?_, rfl, ?_⟩
  · rw [toLatex, if_neg (by decide), if_neg (by decide), if_neg (by decide), if_neg (by decide),
      if_neg (by decide), if_neg (by decide), if_pos rfl]
    rfl
  · intro hc
    have h : toLatex (Node.leaf "math" "x") = .ok (some "[x]".toList) := rfl
    rw [h] at hc
    have hlen := congrArg (fun r => r.toOption.map (fun s => (toStr s).length)) hc
    revert hlen
    decide

theorem mapM_text (vs : List Str) :
    (vs.map Node.text).mapM toLatex = .ok (vs.map some) := by
  induction vs with
  | nil => rfl
  | cons x xs ih =>
    rw [List.map_cons, List.mapM_cons, ih]
    rfl

/-- C15: a text node renders to its value, unchanged whatever characters it
holds, and a paragraph whose children are text nodes renders to the
concatenation of their values. -/
theorem text_identity (cs : List Node) (v : Str) (d : Nat) (u : Str) (o : Option Bool)
    (l : Option Str) (f : Option Frontmatter) (a : Option Str) :
    toLatex (.mk "text".toList cs v d u o l f a) = .ok (some v) ∧
    toLatex (Node.text v) = .ok (some v) ∧
    toLatex (Node.leaf "text" "\\ \x7b \x7d % & $ # _") =
      .ok (some "\\ \x7b \x7d % & $ # _".toList) ∧
    (∀ vs : List Str,
      toLatex (.mk "paragraph".toList (vs.map Node.text) v d u o l f a) =
        .ok (some vs.flatten)) := by
  have h1 : ∀ (cs : List Node) (v : Str) (d : Nat) (u : Str) (o : Option Bool)
      (l : Option Str) (f : Option Frontmatter) (a : Option Str),
      toLatex (.mk "text".toList cs v d u o l f a) = .ok (some v) := by
    intro cs v d u o l f a
    rw [toLatex, if_neg (by decide), if_neg (by decide), if_pos rfl]
  refine ⟨h1 cs v d u o l f a, h1 _ _ _ _ _ _ _ _, rfl, ?_⟩
  intro vs
  rw [container_concat_aux "paragraph".toList (Or.inr (Or.inl rfl)), mapM_text]
  simp only [Except.map]
  congr 2
  induction vs with
  | nil => rfl
  | cons x xs ih =>
    rw [List.map_cons, List.flatMap_cons, ih]
    rfl

/-! ## Identifiers that are not keys of the metadata -/

/-- C16, as the claim states it, fails: for a document whose metadata block
is empty `YAML.parse` returns `null`, the identifier "title" is then absent
from the metadata, and the token `%title%` is not replaced by "undefined":
the property read throws a TypeError and nothing is printed.  Besides, with
the metadata of the single key `title`, the identifier `__proto__` is absent
from the metadata and the token `%__proto__%` is not replaced by "undefined"
either. -/
theorem missing_key_refuted :
    toLatexPlugin (fun _ => .ok .null) "%title%".toList
        (Node.parent "root" [Node.leaf "yaml" ""]) =
      .error .typeError ∧
    lookup "__proto__".toList [("title".toList, "X".toList)] = none ∧
    toLatexPlugin (fun _ => .ok (.mapping [("title".toList, "X".toList)]))
        "%__proto__%".toList (Node.parent "root" [Node.leaf "yaml" "title: X"]) =
      .ok "[object Object]".toList :=
  ⟨rfl, rfl, rfl⟩

/-- C16, amended: when the metadata block decodes to a mapping, a token
`%id%` whose identifier is not "body", is not a key of the mapping and is not
the name of a property that every object has built in does not make the
substitution throw: the text "undefined" stands for it, between the text
before it and the substitution of the rest. -/
theorem missing_key_undefined (entries : List (Str × Str)) (tree : Node) (w : Str)
    (hb : w ≠ "body".toList) (hk : lookup w entries = none)
    (hi : lookup w objectPrototype = none) :
    replacer (.mapping entries) tree w = .ok "undefined".toList ∧
    (∀ pre rest : Str, NoTokenBefore pre ('%' :: (w ++ '%' :: rest)) → w ≠ [] →
      (∀ c ∈ w, isWordChar c = true) →
      replaceTokens (replacer (.mapping entries) tree) 0
          (pre ++ '%' :: (w ++ '%' :: rest)) =
        match replaceTokens (replacer (.mapping entries) tree) 0 rest with
        | .error e => .error e
        | .ok out => .ok (pre ++ "undefined".toList ++ out)) ∧
    objectPrototype.map Prod.fst =
      ["constructor".toList, "__defineGetter__".toList, "__defineSetter__".toList,
        "hasOwnProperty".toList, "__lookupGetter__".toList, "__lookupSetter__".toList,
        "isPrototypeOf".toList, "propertyIsEnumerable".toList, "toString".toList,
        "valueOf".toList, "__proto__".toList, "toLocaleString".toList] := by
  have h1 : replacer (.mapping entries) tree w = .ok "undefined".toList := by
    rw [replacer_other entries tree w hb, hk]
    simp only []
    rw [hi]
    rfl
  refine ⟨h1, ?_, rfl⟩
  intro pre rest h hne hw
  rw [replaceTokens_token _ pre w rest h hne hw, h1]

/-- Witness of C16: the identifier "author" with the metadata of the single
key "title". -/
theorem missing_key_undefined_witness :
    lookup "author".toList [("title".toList, "X".toList)] = none ∧
    replaceTokens (replacer (.mapping [("title".toList, "X".toList)]) (Node.parent "root" [])) 0
        ("By ".toList ++ '%' :: ("author".toList ++ '%' :: ", %title%".toList)) =
      .ok "By undefined, X".toList :=
  ⟨rfl,
    (missing_key_undefined [("title".toList, "X".toList)] (Node.parent "root" [])
      "author".toList (by decide) rfl rfl).2.1 "By ".toList ", %title%".toList
      (noTokenBefore_of_not_mem _ _ (by decide)) (by decide) (by decide)⟩

/-! ## A single pass -/

/-- C18: what stands for a token is put into the result as it is and is not
scanned: the result for the text before a token, the token and the rest is
the text before, the inserted text whatever it contains, and the substitution
of the rest alone.  So a token-like text in the body or in a metadata value
comes out literally, and so does a `$` sequence. -/
theorem single_pass (g : Str → Except JSError Str) :
    (∀ pre w rest r : Str, NoTokenBefore pre ('%' :: (w ++ '%' :: rest)) → w ≠ [] →
      (∀ c ∈ w, isWordChar c = true) → g w = .ok r →
      replaceTokens g 0 (pre ++ '%' :: (w ++ '%' :: rest)) =
        match replaceTokens g 0 rest with
        | .error e => .error e
        | .ok out => .ok (pre ++ r ++ out)) ∧
    toLatexPlugin (fun _ => .ok (.mapping [("title".toList, "X".toList)])) "%body%".toList
        (Node.parent "root" [Node.leaf "yaml" "title: X", Node.leaf "text" "%title%"]) =
      .ok "%title%".toList ∧
    toLatexPlugin (fun _ => .ok (.mapping [("title".toList, "%body% $& $1".toList)])) "<%title%>".toList
        (Node.parent "root" [Node.leaf "yaml" "title: ...", Node.leaf "text" "Y"]) =
      .ok "<%body% $& $1>".toList := by
  refine ⟨?_, rfl, rfl⟩
  intro pre w rest r h hne hw hg
  rw [replaceTokens_token g pre w rest h hne hw, hg]

/-- Witness of C18: a callback that answers with a token-like text. -/
theorem single_pass_witness :
    replaceTokens (fun _ => .ok "%b%".toList) 0
        ("x".toList ++ '%' :: ("a".toList ++ '%' :: "y".toList)) =
      .ok "x%b%y".toList :=
  (single_pass (fun _ => .ok "%b%".toList)).1 "x".toList "a".toList "y".toList "%b%".toList
    (noTokenBefore_of_not_mem _ _ (by decide)) (by decide) (by decide) rfl

/-! ## Which exception `toLatex` throws -/

theorem mapM_error_mem {α β ε : Type} (g : α → Except ε β) (xs : List α) (e : ε)
    (h : xs.mapM g = .error e) : ∃ x ∈ xs, g x = .error e := by
  induction xs with
  | nil =>
    rw [List.mapM_nil] at h
    cases h
  | cons x xs ih =>
    rw [List.mapM_cons] at h
    cases hx : g x with
    | error e2 =>
      rw [hx] at h
      have h2 : e2 = e := by
        simp only [bind, Except.bind] at h
        injection h
      exact ⟨x, List.mem_cons_self _ _, by rw [hx, h2]⟩
    | ok r =>
      rw [hx] at h
      cases hxs : List.mapM g xs with
      | error e2 =>
        rw [hxs] at h
        have h2 : e2 = e := by
          simp only [bind, Except.bind] at h
          injection h
        obtain ⟨y, hy, hy2⟩ := ih (by rw [h2] at hxs; exact hxs)
        exact ⟨y, List.mem_cons_of_mem _ hy, hy2⟩
      | ok rs =>
        rw [hxs] at h
        simp only [bind, Except.bind, pure, Except.pure] at h
        cases h

theorem map_error {α β ε : Type} (g : α → β) (r : Except ε α) (e : ε)
    (h : r.map g = .error e) : r = .error e := by
  cases r with
  | error e2 =>
    simp only [Except.map] at h
    injection h with h
    rw [h]
  | ok x =>
    simp only [Except.map] at h
    cases h

theorem parseCode_error_kind (n : Node) (e : JSError) (h : parseCode n = .error e) :
    e = .error "unknown".toList ∨
      (e = .typeError ∧
        (n.lang = some "figure".toList ∨ n.lang = some "csv".toList) ∧ n.frontmatter = none) := by
  unfold parseCode at h
  simp only [] at h
  split_ifs at h with h1 h2 h3
  · cases hf : n.frontmatter with
    | none =>
      rw [hf] at h
      injection h with h
      exact Or.inr ⟨h.symm, Or.inl h1, rfl⟩
    | some fm =>
      rw [hf] at h
      cases h
  · cases hf : n.frontmatter with
    | none =>
      rw [hf] at h
      injection h with h
      exact Or.inr ⟨h.symm, Or.inr h2, rfl⟩
    | some fm =>
      rw [hf] at h
      cases h
  · injection h with h
    subst h
    exact Or.inl rfl

theorem toLatex_error_kind_aux (k : Nat) :
    ∀ (n : Node) (e : JSError), sizeOf n < k → toLatex n = .error e →
      e = .error "unknown".toList ∨
        (e = .typeError ∧ ∃ m, Reaches n m ∧ missingMetadata m) := by
  induction k with
  | zero => intro n e h; omega
  | succ k ih =>
    rintro ⟨t, cs, v, d, u, o, l, f, a⟩ e hsize he
    by_cases ht : t ∈ traversedTypes
    · obtain ⟨g, hg⟩ := toLatex_traversed t ht cs v d u o l f a
      rw [hg] at he
      obtain ⟨c, hc, hce⟩ := mapM_error_mem toLatex cs e (map_error _ _ e he)
      have hlt : sizeOf c < k := by
        have h1 := List.sizeOf_lt_of_mem hc
        simp only [Node.mk.sizeOf_spec] at hsize
        omega
      rcases ih c e hlt hce with h | ⟨h, m, hm, hmm⟩
      · exact Or.inl h
      · exact Or.inr ⟨h, m, Reaches.child t cs v d u o l f a c m ht hc hm, hmm⟩
    · by_cases hk : t ∈ knownTypes
      · rcases (mem_knownTypes_iff t).1 hk with h | h | h | h | h | h | h | h
        · exact absurd h ht
        · obtain ⟨s, hs⟩ := toLatex_value_leaf t (Or.inl h) cs v d u o l f a
          rw [hs] at he
          cases he
        · obtain ⟨s, hs⟩ := toLatex_value_leaf t (Or.inr (Or.inl h)) cs v d u o l f a
          rw [hs] at he
          cases he
        · obtain ⟨s, hs⟩ := toLatex_value_leaf t (Or.inr (Or.inr (Or.inl h))) cs v d u o l f a
          rw [hs] at he
          cases he
        · obtain ⟨s, hs⟩ :=
            toLatex_value_leaf t (Or.inr (Or.inr (Or.inr h))) cs v d u o l f a
          rw [hs] at he
          cases he
        · subst h
          rw [toLatex_code] at he
          rcases parseCode_error_kind _ e (map_error _ _ e he) with h | ⟨h1, h2, h3⟩
          · exact Or.inl h
          · exact Or.inr ⟨h1, _, Reaches.self _, rfl, h2, h3⟩
        · subst h
          rw [toLatex_html] at he
          cases he
        · subst h
          rw [toLatex_image] at he
          cases he
      · rw [toLatex_unknown t hk] at he
        injection he with he
        exact Or.inl he.symm

theorem toLatex_error_kind (n : Node) (e : JSError) (h : toLatex n = .error e) :
    e = .error "unknown".toList ∨ (e = .typeError ∧ ∃ m, Reaches n m ∧ missingMetadata m) :=
  toLatex_error_kind_aux (sizeOf n + 1) n e (Nat.lt_succ_self _) h

theorem replaceTokens_body_fails (entries : List (Str × Str)) (tree : Node) (e : JSError)
    (he : toLatex tree = .error e) (t : Str) :
    ∀ k : Nat, "body".toList ∈ tokens k t →
      replaceTokens (replacer (.mapping entries) tree) k t = .error e := by
  induction t with
  | nil =>
    intro k h
    cases k <;> simp [tokens] at h
  | cons c cs ih =>
    intro k h
    cases k with
    | succ k =>
      rw [tokens] at h
      rw [replaceTokens]
      exact ih k h
    | zero =>
      rw [tokens] at h
      rw [replaceTokens]
      cases hm : matchToken (c :: cs) with
      | none =>
        rw [hm] at h
        simp only [] at h ⊢
        rw [ih 0 h]
      | some p1 =>
        rw [hm] at h
        simp only [] at h ⊢
        by_cases hb : p1 = "body".toList
        · rw [hb, replacer_body, he]
        · rw [replacer_other entries tree p1 hb]
          simp only []
          have h2 : "body".toList ∈ tokens (p1.length + 1) cs := by
            rcases List.mem_cons.1 h with h3 | h3
            · exact absurd h3.symm hb
            · exact h3
          rw [ih _ h2]

theorem replaceTokens_without_body (entries : List (Str × Str)) (tree : Node) (t : Str) :
    ∀ k : Nat, "body".toList ∉ tokens k t →
      ∃ out, replaceTokens (replacer (.mapping entries) tree) k t = .ok out := by
  induction t with
  | nil =>
    intro k _
    exact ⟨[], by cases k <;> rfl⟩
  | cons c cs ih =>
    intro k h
    cases k with
    | succ k =>
      rw [tokens] at h
      rw [replaceTokens]
      exact ih k h
    | zero =>
      rw [tokens] at h
      rw [replaceTokens]
      cases hm : matchToken (c :: cs) with
      | none =>
        rw [hm] at h
        simp only [] at h ⊢
        obtain ⟨out, hout⟩ := ih 0 h
        rw [hout]
        exact ⟨_, rfl⟩
      | some p1 =>
        rw [hm] at h
        simp only [] at h ⊢
        have hb : p1 ≠ "body".toList := fun hb => h (by rw [hb]; exact List.mem_cons_self _ _)
        have h2 : "body".toList ∉ tokens (p1.length + 1) cs :=
          fun h3 => h (List.mem_cons_of_mem _ h3)
        obtain ⟨out, hout⟩ := ih _ h2
        rw [replacer_other entries tree p1 hb]
        simp only []
        rw [hout]
        exact ⟨_, rfl⟩

/-! ## An unknown directive in the document -/

/-- C17, as the claim states it, fails: with a template that has no `%body%`
token the body is never rendered, so a document whose body holds a code block
tagged "unknown-lang" is converted without any exception. -/
theorem unknown_directive_refuted :
    toLatexPlugin (fun _ => .ok (.mapping [("title".toList, "X".toList)]))
        "Title: %title%".toList
        (Node.parent "root"
          [Node.leaf "yaml" "title: X",
            Node.code (some "unknown-lang".toList) "x".toList (some ⟨none, none, none⟩)]) =
      .ok "Title: X".toList ∧
    unknownDirective
      (Node.code (some "unknown-lang".toList) "x".toList (some ⟨none, none, none⟩)) :=
  ⟨rfl, rfl, by decide⟩

/-- C17, amended: take a document whose leading yaml block decodes to a
mapping and whose remaining tree, its code nodes carrying directive metadata
as in a parsed document, holds in a traversed position a code block whose
language tag is none of "figure", "csv" and "".  For every template that
contains a `%body%` token the conversion throws the error "unknown" and
prints nothing; for a template without `%body%` token the body is not
rendered and the conversion returns. -/
theorem unknown_directive_aborts (parse : Str → Except JSError Metadata) (template : Str)
    (m : Node) (entries : List (Str × Str)) (hm : m.type = "yaml".toList)
    (hp : parse m.value = .ok (.mapping entries)) (t : Str) (cs : List Node) (v : Str)
    (d : Nat) (u : Str) (o : Option Bool) (l : Option Str) (f : Option Frontmatter)
    (a : Option Str) (hfm : carriesMetadata (.mk t cs v d u o l f a))
    (c : Node) (hr : Reaches (.mk t cs v d u o l f a) c) (hc : unknownDirective c) :
    ("body".toList ∈ tokens 0 template →
      toLatexPlugin parse template (.mk t (m :: cs) v d u o l f a) =
        .error (.error "unknown".toList)) ∧
    ("body".toList ∉ tokens 0 template →
      ∃ out, toLatexPlugin parse template (.mk t (m :: cs) v d u o l f a) = .ok out) := by
  have hplug : toLatexPlugin parse template (.mk t (m :: cs) v d u o l f a) =
      replaceTokens (replacer (.mapping entries) (.mk t cs v d u o l f a)) 0 template := by
    rw [toLatexPlugin_cons, getYaml_yaml parse m hm, hp]
  rw [hplug]
  constructor
  · intro hb
    obtain ⟨e, he⟩ := (toLatex_fails_iff (.mk t cs v d u o l f a)).2 ⟨c, hr, Or.inr (Or.inl hc)⟩
    have hk : e = .error "unknown".toList := by
      rcases toLatex_error_kind _ e he with h | ⟨_, m2, hm2, hmm⟩
      · exact h
      · exact absurd hmm (not_missingMetadata_of_carries _ m2 hfm hm2)
    rw [hk] at he
    exact replaceTokens_body_fails entries _ _ he template 0 hb
  · intro hb
    exact replaceTokens_without_body entries _ template 0 hb

/-- Witness of C17: the template "%body%" and a document whose paragraph
holds a code block tagged "unknown-lang". -/
theorem unknown_directive_aborts_witness :
    "body".toList ∈ tokens 0 "%body%".toList ∧
    toLatexPlugin (fun _ => .ok (.mapping [])) "%body%".toList
        (Node.parent "root"
          [Node.leaf "yaml" "title: X",
            Node.parent "paragraph"
              [Node.code (some "unknown-lang".toList) "x".toList (some ⟨none, none, none⟩)]]) =
      .error (.error "unknown".toList) :=
  ⟨by decide,
    (unknown_directive_aborts (fun _ => .ok (.mapping [])) "%body%".toList
      (Node.leaf "yaml" "title: X") [] rfl rfl "root".toList
      [Node.parent "paragraph"
        [Node.code (some "unknown-lang".toList) "x".toList (some ⟨none, none, none⟩)]]
      [] 0 [] none none none none
      (carriesMetadata_of_children _ _ _ _ _ _ _ _ _ (by decide) (fun c1 h1 => by
        rw [List.mem_singleton.1 h1]
        exact carriesMetadata_of_children _ _ _ _ _ _ _ _ _ (by decide) (fun c2 h2 => by
          rw [List.mem_singleton.1 h2]
          exact carriesMetadata_of_not_traversed _ (by decide) (fun _ => by
            intro h3
            cases h3))))
      (Node.code (some "unknown-lang".toList) "x".toList (some ⟨none, none, none⟩))
      (Reaches.child _ _ _ _ _ _ _ _ _
        (Node.parent "paragraph"
          [Node.code (some "unknown-lang".toList) "x".toList (some ⟨none, none, none⟩)]) _
        (by decide) (List.mem_singleton.2 rfl)
        (Reaches.child _ _ _ _ _ _ _ _ _ _ _ (by decide) (List.mem_singleton.2 rfl)
          (Reaches.self _)))
      ⟨rfl, by decide⟩).1 (by decide)⟩

/-! ## Images with another extension -/

theorem flatMap_toStr (k : Str → Str) (rs : List (Option Str)) :
    rs.flatMap (fun r => k (toStr r)) = (rs.map toStr).flatMap k := by
  induction rs with
  | nil => rfl
  | cons r rs ih => rw [List.flatMap_cons, List.map_cons, List.flatMap_cons, ih]

/-- A node of a type whose children are rendered depends on the results of the
children through their conversions to strings only. -/
theorem toLatex_traversed_strs (t : Str) (ht : t ∈ traversedTypes) (v : Str)
    (d : Nat) (u : Str) (o : Option Bool) (l : Option Str) (f : Option Frontmatter)
    (a : Option Str) :
    ∃ g : List Str → Str, ∀ cs : List Node,
      toLatex (.mk t cs v d u o l f a) =
        ((cs.mapM toLatex).map (List.map toStr)).map (fun ss => some (g ss)) := by
  have hcomp : ∀ (g : List Str → Str) (r : Except JSError (List (Option Str))),
      (r.map (List.map toStr)).map (fun ss => some (g ss)) =
        r.map (fun rs => some (g (rs.map toStr))) := by
    intro g r
    cases r <;> rfl
  simp only [traversedTypes, List.mem_cons, List.mem_singleton, List.not_mem_nil,
    or_false] at ht
  have hcont : ∀ h : isContainer t, ∃ g : List Str → Str, ∀ cs : List Node,
      toLatex (.mk t cs v d u o l f a) =
        ((cs.mapM toLatex).map (List.map toStr)).map (fun ss => some (g ss)) := by
    intro h
    refine ⟨fun ss => ss.flatMap id, fun cs => ?_⟩
    rw [hcomp, container_concat_aux t h v d u o l f a cs]
    congr 1
    funext rs
    rw [← flatMap_toStr id rs]
    rfl
  rcases ht with h | h | h | h | h | h
  · exact hcont (Or.inl h)
  · exact hcont (Or.inr (Or.inl h))
  · exact hcont (Or.inr (Or.inr h))
  · subst h
    refine ⟨fun ss => (if d > 1 then "\\subsection\x7b".toList else "\\section\x7b".toList)
      ++ ss.flatMap id ++ "\x7d\n".toList, fun cs => ?_⟩
    rw [hcomp, toLatex_heading]
    congr 1
    funext rs
    rw [← flatMap_toStr id rs]
    rfl
  · subst h
    refine ⟨fun ss => "\\href\x7b".toList ++ u ++ "\x7d\x7b".toList ++ ss.flatMap id
      ++ "\x7d".toList, fun cs => ?_⟩
    rw [hcomp, toLatex_link]
    congr 1
    funext rs
    rw [← flatMap_toStr id rs]
    rfl
  · subst h
    refine ⟨fun ss => "\\begin\x7b".toList ++ listEnv o ++ "\x7d\n".toList
      ++ ss.flatMap (fun s => "\\item\x7b".toList ++ s ++ "\x7d\n".toList)
      ++ ("\\end\x7b".toList ++ listEnv o ++ "\x7d\n".toList), fun cs => ?_⟩
    rw [hcomp, toLatex_list]
    congr 1
    funext rs
    rw [← flatMap_toStr (fun s => "\\item\x7b".toList ++ s ++ "\x7d\n".toList) rs]
    rfl

theorem mapM_strs_congr (n n2 : Node)
    (h : (toLatex n).map toStr = (toLatex n2).map toStr) (xs ys : List Node) :
    ((xs ++ n :: ys).mapM toLatex).map (List.map toStr) =
      ((xs ++ n2 :: ys).mapM toLatex).map (List.map toStr) := by
  rw [List.mapM_append, List.mapM_append, List.mapM_cons, List.mapM_cons]
  cases List.mapM toLatex xs with
  | error e => rfl
  | ok rx =>
    cases hn : toLatex n with
    | error e =>
      rw [hn] at h
      cases hn2 : toLatex n2 with
      | error e2 =>
        rw [hn2] at h
        simp only [Except.map] at h
        injection h with h
        rw [h]
      | ok r2 =>
        rw [hn2] at h
        simp only [Except.map] at h
        cases h
    | ok r =>
      rw [hn] at h
      cases hn2 : toLatex n2 with
      | error e2 =>
        rw [hn2] at h
        simp only [Except.map] at h
        cases h
      | ok r2 =>
        rw [hn2] at h
        simp only [Except.map] at h
        injection h with h
        cases List.mapM toLatex ys with
        | error e => rfl
        | ok ry =>
          simp only [bind, Except.bind, pure, Except.pure, Except.map, List.map_append,
            List.map_cons, h]

theorem parseImage_other (n : Node)
    (h : extension n.url ∉
      ["bib".toList, "csv".toList, "png".toList, "jpg".toList, "jpeg".toList]) :
    parseImage n = none := by
  simp only [List.mem_cons, List.mem_singleton, List.not_mem_nil, or_false, not_or] at h
  obtain ⟨h1, h2, h3, h4, h5⟩ := h
  unfold parseImage
  simp only []
  rw [if_neg h1, if_neg h2, if_neg (by rintro (h | h | h) <;> contradiction)]

/-- C19: for an image node whose extension is none of bib, csv, png, jpg and
jpeg (gif, svg and the upper-case PNG are such), `parseImage` neither throws
nor returns a text: its result, and that of `toLatex`, is `undefined`.  In the
children of a root, paragraph, listItem, heading, link or list the image
behaves as a text node with the value "undefined" would: it raises no
exception and the text "undefined" stands at its place. -/
theorem unknown_image_extension (n : Node) (ht : n.type = "image".toList)
    (h : extension n.url ∉
      ["bib".toList, "csv".toList, "png".toList, "jpg".toList, "jpeg".toList]) :
    parseImage n = none ∧
    toLatex n = .ok none ∧
    toStr none = "undefined".toList ∧
    (∀ (t : Str) (xs ys : List Node) (v : Str) (d : Nat) (u : Str) (o : Option Bool)
      (l : Option Str) (f : Option Frontmatter) (a : Option Str), t ∈ traversedTypes →
      toLatex (.mk t (xs ++ n :: ys) v d u o l f a) =
        toLatex (.mk t (xs ++ Node.text "undefined".toList :: ys) v d u o l f a)) ∧
    extension "a.gif".toList ∉
      ["bib".toList, "csv".toList, "png".toList, "jpg".toList, "jpeg".toList] ∧
    extension "a.svg".toList ∉
      ["bib".toList, "csv".toList, "png".toList, "jpg".toList, "jpeg".toList] ∧
    extension "a.PNG".toList ∉
      ["bib".toList, "csv".toList, "png".toList, "jpg".toList, "jpeg".toList] := by
  have hp : parseImage n = none := parseImage_other n h
  have hn : toLatex n = .ok none := by
    obtain ⟨t, cs, v, d, u, o, l, f, a⟩ := n
    have h2 : t = "image".toList := ht
    subst h2
    rw [toLatex_image, hp]
  refine ⟨hp, hn, rfl, ?_, by decide, by decide, by decide⟩
  intro t xs ys v d u o l f a htr
  obtain ⟨g, hg⟩ := toLatex_traversed_strs t htr v d u o l f a
  rw [hg, hg, mapM_strs_congr n (Node.text "undefined".toList) (by rw [hn]; rfl)]

/-- Witness of C19: the image "a.gif" between two text nodes of a
paragraph. -/
theorem unknown_image_extension_witness :
    toLatex (Node.parent "paragraph"
        ([Node.leaf "text" "x"] ++ Node.image "a.gif".toList (some "alt".toList) ::
          [Node.leaf "text" "y"])) =
      toLatex (Node.parent "paragraph"
        ([Node.leaf "text" "x"] ++ Node.text "undefined".toList :: [Node.leaf "text" "y"])) ∧
    toLatex (Node.parent "paragraph"
        [Node.leaf "text" "x", Node.image "a.gif".toList (some "alt".toList),
          Node.leaf "text" "y"]) =
      .ok (some "xundefinedy".toList) :=
  ⟨(unknown_image_extension (Node.image "a.gif".toList (some "alt".toList)) rfl
      (by decide)).2.2.2.1 "paragraph".toList [Node.leaf "text" "x"] [Node.leaf "text" "y"]
      [] 0 [] none none none none (by decide),
    rfl⟩

/-! ## The extension of a url -/

theorem extension_no_dot (url : Str) (h : '.' ∉ url) : extension url = url := by
  unfold extension slice
  rw [lastIndexOf_of_not_mem '.' url h]
  simp

/-- C20: `parseImage` decides on what follows the last '.' of the url, and on
the whole url when it has no '.': the urls "png", "jpg" and "jpeg" give a
figure that includes that url, the urls "bib" and "csv" the empty string, and
a url ending in '.' has the empty extension and gives no result. -/
theorem extension_rule (alt : Option Str) :
    (∀ pre e : Str, '.' ∉ e → extension (pre ++ '.' :: e) = e) ∧
    (∀ url : Str, '.' ∉ url → extension url = url) ∧
    (∀ pre : Str, extension (pre ++ ['.']) = []) ∧
    (∀ url : Str, url = "png".toList ∨ url = "jpg".toList ∨ url = "jpeg".toList →
      parseImage (Node.image url alt) =
        some ("\\begin\x7bfigure\x7d\n\\centering\n".toList
          ++ "\\includegraphics[width=0.25\\linewidth]\x7b".toList ++ url ++ "\x7d\n".toList
          ++ optionalPart "\\caption\x7b".toList alt
          ++ "\\end\x7bfigure\x7d\n".toList)) ∧
    parseImage (Node.image "bib".toList alt) = some [] ∧
    parseImage (Node.image "csv".toList alt) = some [] ∧
    (∀ pre : Str, parseImage (Node.image (pre ++ ['.']) alt) = none) := by
  refine ⟨extension_suffix, extension_no_dot, fun pre => extension_suffix pre [] (by simp),
    ?_, ?_, ?_, ?_⟩
  · intro url hu
    have hext : extension url = url := by
      rcases hu with h | h | h <;> rw [h] <;> rfl
    have h2 : extension (Node.image url alt).url = "png".toList ∨
        extension (Node.image url alt).url = "jpg".toList ∨
        extension (Node.image url alt).url = "jpeg".toList := by
      show extension url = _ ∨ extension url = _ ∨ extension url = _
      rw [hext]
      exact hu
    rw [parseImage_figure _ h2]
    simp [Node.image, Node.url, Node.alt]
  · exact parseImage_suppressed _ (Or.inl rfl)
  · exact parseImage_suppressed _ (Or.inr rfl)
  · intro pre
    apply parseImage_other
    show extension (pre ++ ['.']) ∉ _
    rw [extension_suffix pre [] (by simp)]
    decide

end Md2Latex
